import Mathlib

/-!
# Verification of the distil static-analysis core

A shallow embedding of the analysis engine of the `distil` repository:
the L2 call-graph builder (`buildCallGraph`, `addCallEdge`, `getCallers`),
the L3 CFG builder (`CFGBuilder`), the L4 DFG builder (`DFGBuilder`) and the
L5 backward slicer (`computeBackwardSlice`), together with theorems about
the invariants the specification states for them.

TypeScript string-literal union types (`BlockType`, `EdgeType`, `RefType`,
call types, PDG node and edge types) are embedded as `String`, exactly the
literals the source uses.  JavaScript `Map`s are embedded as insertion-ordered
association lists (`mapGet` / `mapSet` below mirror `Map.get` / `Map.set`:
`set` replaces the value in place when the key exists, otherwise appends).
JavaScript `Set`s become insertion-ordered duplicate-free lists
(`pushUnique`).  Fallible `await`ed steps become `Except`.
-/

/-- JS `Map.get`: value of the first (unique) entry with the given key. -/
def mapGet {α : Type} (m : List (String × α)) (k : String) : Option α :=
  match m with
  | [] => none
  | p :: rest => if p.1 = k then some p.2 else mapGet rest k

/-- JS `Map.set`: replace the entry in place when the key exists, else append. -/
def mapSet {α : Type} (m : List (String × α)) (k : String) (v : α) :
    List (String × α) :=
  match m with
  | [] => [(k, v)]
  | p :: rest => if p.1 = k then (k, v) :: rest else p :: mapSet rest k v

/-- JS `Set.add` / deduplicating `push` used throughout the source:
append the element when it is not yet present. -/
def pushUnique {α : Type} [DecidableEq α] (xs : List α) (x : α) : List α :=
  if x ∈ xs then xs else xs ++ [x]

/-! ## L2 call-graph data model (`tldr-core/src/types/callgraph.ts`) -/

/-- `CallSite` (callgraph.ts): where a function is called from. -/
structure CallSite where
  file : String
  caller : String
  line : Nat
  column : Nat
  isMethodCall : Bool
  receiver : Option String
  argumentCount : Nat
  deriving DecidableEq, Repr, Inhabited

/-- `FunctionLocation` (callgraph.ts): identity of a function definition. -/
structure FunctionLocation where
  file : String
  name : String
  qualifiedName : String
  line : Nat
  isExported : Bool
  deriving DecidableEq, Repr, Inhabited

/-- `CallEdge` (callgraph.ts).  `callType` ranges over the string literals
`direct | method | constructor | callback | dynamic` of the source union. -/
structure CallEdge where
  caller : FunctionLocation
  callee : String
  calleeLocation : Option FunctionLocation
  callSite : CallSite
  isDynamic : Bool
  callType : String
  deriving DecidableEq, Repr, Inhabited

/-- `ProjectCallGraph` (callgraph.ts).  `builtAt` is `Date.now()` in the
source, an external clock; the embedding pins it to `0`. -/
structure ProjectCallGraph where
  projectRoot : String
  edges : List CallEdge
  forwardIndex : List (String × List CallEdge)
  backwardIndex : List (String × List CallEdge)
  functions : List (String × FunctionLocation)
  files : List String
  builtAt : Nat
  deriving Repr

/-- `createProjectCallGraph` (callgraph.ts). -/
def createProjectCallGraph (projectRoot : String) : ProjectCallGraph :=
  { projectRoot := projectRoot
    edges := []
    forwardIndex := []
    backwardIndex := []
    functions := []
    files := []
    builtAt := 0 }

/-- `addCallEdge` (callgraph.ts): push the edge, update the forward index
under the caller's qualified name, and update the backward index under the
callee's qualified name when the callee is resolved. -/
def addCallEdge (graph : ProjectCallGraph) (edge : CallEdge) : ProjectCallGraph :=
  let graph := { graph with edges := graph.edges ++ [edge] }
  let callerKey := edge.caller.qualifiedName
  let forwardEdges := (mapGet graph.forwardIndex callerKey).getD []
  let graph :=
    { graph with forwardIndex := mapSet graph.forwardIndex callerKey (forwardEdges ++ [edge]) }
  match edge.calleeLocation with
  | some loc =>
      let calleeKey := loc.qualifiedName
      let backwardEdges := (mapGet graph.backwardIndex calleeKey).getD []
      { graph with backwardIndex := mapSet graph.backwardIndex calleeKey (backwardEdges ++ [edge]) }
  | none => graph

/-- Inner recursion of `getCallers` (callgraph.ts): `traverse(name, depth)`
checks `depth > maxDepth || visited.has(name)`, adds `name` to the visited
set, then for each edge of `backwardIndex[name]` pushes `edge.callSite` and
recurses on `edge.caller.qualifiedName` at `depth + 1`.  The embedding
counts the remaining depth budget `gas = maxDepth + 1 - depth` downwards,
so `gas = 0` is exactly the source's `depth > maxDepth` early return. -/
def traverseCallers (graph : ProjectCallGraph) :
    Nat → String → List String × List CallSite → List String × List CallSite
  | 0, _, st => st
  | gas + 1, name, (visited, result) =>
      if name ∈ visited then (visited, result)
      else
        ((mapGet graph.backwardIndex name).getD []).foldl
          (fun st e =>
            traverseCallers graph gas e.caller.qualifiedName
              (st.1, st.2 ++ [e.callSite]))
          (visited ++ [name], result)

/-- `getCallers` (callgraph.ts): all callers of a function, to `maxDepth`. -/
def getCallers (graph : ProjectCallGraph) (qualifiedName : String)
    (maxDepth : Nat) : List CallSite :=
  (traverseCallers graph (maxDepth + 1) qualifiedName ([], [])).2

/-- Modelled from the spec: the impact query as §4.4 words it
("breadth-first traversal over `backwardIndex`, visiting each qualified name
at most once", "call-site records annotated with the depth at which they were
discovered (depth 1 = direct caller)").  Used only to compare the source's
`getCallers` against the specified traversal order. -/
def getCallersBFSSpec (graph : ProjectCallGraph) (qualifiedName : String)
    (maxDepth : Nat) : List (CallSite × Nat) :=
  go maxDepth 1 [qualifiedName] [qualifiedName] []
where
  go : Nat → Nat → List String → List String → List (CallSite × Nat) →
      List (CallSite × Nat)
  | 0, _, _, _, acc => acc
  | budget + 1, depth, frontier, visited, acc =>
      let edges := frontier.flatMap (fun n => (mapGet graph.backwardIndex n).getD [])
      let acc := acc ++ edges.map (fun e => (e.callSite, depth))
      let newNames :=
        (edges.map (fun e => e.caller.qualifiedName)).foldl
          (fun ns n => if n ∈ visited ∨ n ∈ ns then ns else ns ++ [n]) []
      go budget (depth + 1) newNames (visited ++ newNames) acc

/-! ## `buildCallGraph` (`distil-core/src/index.ts`)

The file enumeration (`collectSourceFiles`), file reading and tree-sitter
parsing are external I/O (spec §6); the embedding receives per file the data
those steps produce: the module name (derived by `getModuleName` from Node's
`path` functions), whether `getParser` found a parser for the extension, and
the combined outcome of the `await`ed `readFile` / `extractAST` /
`extractCalls` steps as an `Except` (a rejected promise propagates). -/

/-- The fields of a `FunctionInfo` that `buildCallGraph` reads. -/
structure FnInfo where
  name : String
  lineNumber : Nat
  isExported : Bool
  deriving DecidableEq, Repr

/-- The fields of a `ClassInfo` that `buildCallGraph` reads. -/
structure ClsInfo where
  name : String
  isExported : Bool
  methods : List FnInfo
  deriving DecidableEq, Repr

/-- The fields of a `ModuleInfo` that `buildCallGraph` reads. -/
structure ModuleInfo where
  functions : List FnInfo
  classes : List ClsInfo
  deriving DecidableEq, Repr

/-- Result of the per-file parse phase: `extractAST` and `extractCalls`. -/
structure ParsedFile where
  moduleInfo : ModuleInfo
  calls : List (String × List String)
  deriving DecidableEq, Repr

/-- One enumerated source file as `buildCallGraph` sees it. -/
structure FileInput where
  filePath : String
  moduleName : String
  hasParser : Bool
  parsed : Except String ParsedFile
  deriving Repr

/-- `createFunctionLocation` (index.ts). -/
def createFunctionLocation (filePath name qualifiedName : String) (line : Nat)
    (isExported : Bool) : FunctionLocation :=
  { file := filePath
    name := name
    qualifiedName := qualifiedName
    line := line
    isExported := isExported }

/-- `registerFunctionLocation` (index.ts): add to `graph.functions`, push the
location onto every lookup key's bucket of `nameIndex`, and set first-wins
entries of the per-file `fileFunctions` map.  Returns the updated
`(fileFunctions, nameIndex, graph)`. -/
def registerFunctionLocation (fileFunctions : List (String × FunctionLocation))
    (nameIndex : List (String × List FunctionLocation)) (graph : ProjectCallGraph)
    (location : FunctionLocation) (lookupKeys : List String) :
    List (String × FunctionLocation) × List (String × List FunctionLocation) ×
      ProjectCallGraph :=
  let graph := { graph with functions := mapSet graph.functions location.qualifiedName location }
  let nameIndex :=
    lookupKeys.foldl
      (fun ni key => mapSet ni key ((mapGet ni key).getD [] ++ [location])) nameIndex
  let fileFunctions :=
    lookupKeys.foldl
      (fun ff key => if (mapGet ff key).isSome then ff else mapSet ff key location)
      fileFunctions
  (fileFunctions, nameIndex, graph)

/-- `resolveCallee` (index.ts): prefer the defining file's own map; else a
unique project-wide `nameIndex` match; else `(null, dynamic)`. -/
def resolveCallee (calleeName : String)
    (fileFunctions : List (String × FunctionLocation))
    (nameIndex : List (String × List FunctionLocation)) :
    Option FunctionLocation × Bool :=
  match mapGet fileFunctions calleeName with
  | some localMatch => (some localMatch, false)
  | none =>
      let ms := (mapGet nameIndex calleeName).getD []
      if ms.length = 1 then (ms.head?, false)
      else (none, true)

/-- The `CallEdge` literal built inside `buildCallGraph`'s edge loop
(index.ts lines 124-153), for one callee name of one caller. -/
def makeCallEdge (filePath : String) (callerLocation : FunctionLocation)
    (calleeName : String) (fileFunctions : List (String × FunctionLocation))
    (nameIndex : List (String × List FunctionLocation)) : CallEdge :=
  let r := resolveCallee calleeName fileFunctions nameIndex
  let calleeLocation := r.1
  let isDynamic := r.2
  let isMethodCall := calleeName.contains '.'
  let callType : String :=
    if isDynamic then "dynamic" else if isMethodCall then "method" else "direct"
  { caller := callerLocation
    callee := calleeName
    calleeLocation := calleeLocation
    callSite :=
      { file := filePath
        caller := callerLocation.qualifiedName
        line := callerLocation.line
        column := 0
        isMethodCall := isMethodCall
        receiver := none
        argumentCount := 0 }
    isDynamic := isDynamic
    callType := callType }

/-- Registration pass of one file (index.ts lines 82-113): register every
top-level function under its name, every method under `Class.method` and its
bare name, and record the per-file map in `fileIndex`. -/
def registerFile (nameIndex : List (String × List FunctionLocation))
    (fileIndex : List (String × List (String × FunctionLocation)))
    (graph : ProjectCallGraph) (filePath moduleName : String) (m : ModuleInfo) :
    List (String × List FunctionLocation) ×
      List (String × List (String × FunctionLocation)) × ProjectCallGraph :=
  let step1 :=
    m.functions.foldl
      (fun (acc : List (String × FunctionLocation) ×
          List (String × List FunctionLocation) × ProjectCallGraph) fn =>
        let location := createFunctionLocation filePath fn.name
          (moduleName ++ "." ++ fn.name) fn.lineNumber fn.isExported
        registerFunctionLocation acc.1 acc.2.1 acc.2.2 location [fn.name])
      ([], nameIndex, graph)
  let step2 :=
    m.classes.foldl
      (fun acc cls =>
        cls.methods.foldl
          (fun (acc : List (String × FunctionLocation) ×
              List (String × List FunctionLocation) × ProjectCallGraph) method =>
            let methodKey := cls.name ++ "." ++ method.name
            let location := createFunctionLocation filePath method.name
              (moduleName ++ "." ++ methodKey) method.lineNumber cls.isExported
            registerFunctionLocation acc.1 acc.2.1 acc.2.2 location
              [methodKey, method.name])
          acc)
      step1
  (step2.2.1, mapSet fileIndex filePath step2.1, step2.2.2)

/-- State threaded through the first `for (const filePath of files)` loop. -/
structure CollectState where
  nameIndex : List (String × List FunctionLocation)
  fileIndex : List (String × List (String × FunctionLocation))
  fileCalls : List (String × List (String × List String))
  graph : ProjectCallGraph

/-- First loop of `buildCallGraph`: skip files without a parser
(`if (!parser) continue`); a rejected `readFile` / `extractAST` /
`extractCalls` propagates (there is no `try`/`catch` around the per-file
work), aborting the whole build. -/
def collectPhase : List FileInput → CollectState → Except String CollectState
  | [], st => .ok st
  | f :: rest, st =>
      if f.hasParser = false then collectPhase rest st
      else
        match f.parsed with
        | .error e => .error e
        | .ok parsed =>
            let st' :=
              { st with
                fileCalls := mapSet st.fileCalls f.filePath parsed.calls
                nameIndex := (registerFile st.nameIndex st.fileIndex st.graph
                  f.filePath f.moduleName parsed.moduleInfo).1
                fileIndex := (registerFile st.nameIndex st.fileIndex st.graph
                  f.filePath f.moduleName parsed.moduleInfo).2.1
                graph := (registerFile st.nameIndex st.fileIndex st.graph
                  f.filePath f.moduleName parsed.moduleInfo).2.2 }
            collectPhase rest st'

/-- Innermost loop of the edge phase: `for (const calleeName of callees)`. -/
def emitCalleeList (filePath : String) (callerLocation : FunctionLocation)
    (fileFunctions : List (String × FunctionLocation))
    (nameIndex : List (String × List FunctionLocation)) :
    List String → ProjectCallGraph → ProjectCallGraph
  | [], graph => graph
  | calleeName :: rest, graph =>
      emitCalleeList filePath callerLocation fileFunctions nameIndex rest
        (addCallEdge graph
          (makeCallEdge filePath callerLocation calleeName fileFunctions nameIndex))

/-- Middle loop of the edge phase: `for (const [callerName, callees] of calls)`;
callers with no local `FunctionLocation` are skipped. -/
def emitCallerList (filePath : String)
    (fileFunctions : List (String × FunctionLocation))
    (nameIndex : List (String × List FunctionLocation)) :
    List (String × List String) → ProjectCallGraph → ProjectCallGraph
  | [], graph => graph
  | (callerName, callees) :: rest, graph =>
      match mapGet fileFunctions callerName with
      | none => emitCallerList filePath fileFunctions nameIndex rest graph
      | some callerLocation =>
          emitCallerList filePath fileFunctions nameIndex rest
            (emitCalleeList filePath callerLocation fileFunctions nameIndex
              callees graph)

/-- Outer loop of the edge phase: `for (const [filePath, calls] of fileCalls)`;
files absent from `fileIndex` are skipped. -/
def emitFileCalls (nameIndex : List (String × List FunctionLocation))
    (fileIndex : List (String × List (String × FunctionLocation))) :
    List (String × List (String × List String)) → ProjectCallGraph →
      ProjectCallGraph
  | [], graph => graph
  | (filePath, calls) :: rest, graph =>
      match mapGet fileIndex filePath with
      | none => emitFileCalls nameIndex fileIndex rest graph
      | some fileFunctions =>
          emitFileCalls nameIndex fileIndex rest
            (emitCallerList filePath fileFunctions nameIndex calls graph)

/-- `buildCallGraph` (index.ts lines 62-158): create the empty graph, record
the enumerated files, run the registration pass over every parsable file, then
emit one `CallEdge` per recorded callee.  A per-file failure in the first loop
propagates out (the source has no `try`/`catch` there). -/
def buildCallGraph (rootPath : String) (files : List FileInput) :
    Except String ProjectCallGraph := do
  let graph := createProjectCallGraph rootPath
  let graph := { graph with files := files.map (fun f => f.filePath) }
  let st ← collectPhase files
    { nameIndex := [], fileIndex := [], fileCalls := [], graph := graph }
  pure (emitFileCalls st.nameIndex st.fileIndex st.fileCalls st.graph)

/-! ## Parse trees

The builders consume the tree-sitter node interface `TSNode` declared at the
top of the TypeScript parser: a kind string, the original text, start/end
positions and the ordered children (anonymous tokens such as braces and
semicolons appear as children with their literal text as `type`).
`firstChild` is the head of `children`. -/

/-- A tree-sitter position (`{ row, column }`, both 0-based). -/
structure TSPoint where
  row : Nat
  column : Nat
  deriving DecidableEq, Repr

/-- The `TSNode` interface of the TypeScript parser. -/
inductive TSNode where
  | mk (type text : String) (startPosition endPosition : TSPoint)
      (children : List TSNode)

/-- Node kind string. -/
def TSNode.type : TSNode → String
  | .mk t _ _ _ _ => t

/-- Original source text of the node. -/
def TSNode.text : TSNode → String
  | .mk _ tx _ _ _ => tx

/-- Start position. -/
def TSNode.startPosition : TSNode → TSPoint
  | .mk _ _ s _ _ => s

/-- End position. -/
def TSNode.endPosition : TSNode → TSPoint
  | .mk _ _ _ e _ => e

/-- Ordered children. -/
def TSNode.children : TSNode → List TSNode
  | .mk _ _ _ _ cs => cs

/-- `firstChild` of the tree-sitter interface (`null` on leaves). -/
def TSNode.firstChild (n : TSNode) : Option TSNode := n.children.head?

theorem TSNode.sizeOf_children_lt (n : TSNode) : sizeOf n.children < sizeOf n := by
  cases n with
  | mk t tx s e cs =>
      simp only [TSNode.children, TSNode.mk.sizeOf_spec]
      omega

theorem TSNode.sizeOf_lt_of_mem {n c : TSNode} (h : c ∈ n.children) :
    sizeOf c < sizeOf n :=
  lt_trans (List.sizeOf_lt_of_mem h) n.sizeOf_children_lt

theorem TSNode.sizeOf_lt_of_find? {n c : TSNode} {p : TSNode → Bool}
    (h : n.children.find? p = some c) : sizeOf c < sizeOf n :=
  TSNode.sizeOf_lt_of_mem (List.mem_of_find?_eq_some h)

theorem TSNode.sizeOf_children_lt_of_mem {n c : TSNode} (h : c ∈ n.children) :
    sizeOf c.children < sizeOf n :=
  lt_trans c.sizeOf_children_lt (TSNode.sizeOf_lt_of_mem h)

theorem TSNode.sizeOf_children_lt_of_find? {n c : TSNode} {p : TSNode → Bool}
    (h : n.children.find? p = some c) : sizeOf c.children < sizeOf n :=
  TSNode.sizeOf_children_lt_of_mem (List.mem_of_find?_eq_some h)

theorem TSNode.sizeOf_lt₂ {n c d : TSNode} (h1 : c ∈ n.children)
    (h2 : d ∈ c.children) : sizeOf d < sizeOf n :=
  lt_trans (TSNode.sizeOf_lt_of_mem h2) (TSNode.sizeOf_lt_of_mem h1)

theorem TSNode.sizeOf_children_lt₂ {n c d : TSNode} (h1 : c ∈ n.children)
    (h2 : d ∈ c.children) : sizeOf d.children < sizeOf n :=
  lt_trans (TSNode.sizeOf_children_lt_of_mem h2) (TSNode.sizeOf_lt_of_mem h1)

theorem mem_of_head?_eq_some {α : Type} {l : List α} {a : α}
    (h : l.head? = some a) : a ∈ l := by
  cases l with
  | nil => simp at h
  | cons x xs => simp_all

theorem mem_of_getElem?_eq_some {α : Type} {l : List α} {i : Nat} {a : α}
    (h : l[i]? = some a) : a ∈ l := by
  rw [List.getElem?_eq_some] at h
  obtain ⟨hi, rfl⟩ := h
  exact List.getElem_mem hi

theorem mem_of_getLast?_eq_some {α : Type} {l : List α} {b : α}
    (h : l.getLast? = some b) : b ∈ l := by
  have hx : b ∈ l.getLast? := by simp [Option.mem_def, h]
  obtain ⟨hne, heq⟩ := List.mem_getLast?_eq_getLast hx
  rw [heq]
  exact List.getLast_mem hne

/-! ## L3 CFG data model (`distil-core/src/types/cfg.ts`) -/

/-- One endpoint of a `SourceRange` (`{ line, column }`, 1-based line). -/
structure RangePos where
  line : Nat
  column : Nat
  deriving DecidableEq, Repr

/-- `SourceRange` (common.ts); the source's `end` field is `stop` here
(`end` is reserved in Lean). -/
structure SourceRange where
  start : RangePos
  stop : RangePos
  deriving DecidableEq, Repr

/-- `CFGBlock` (cfg.ts).  `type` ranges over the source's `BlockType`
literals `entry | exit | body | branch | loop_header | loop_body | try |
catch | finally | return | throw`. -/
structure CFGBlock where
  id : Nat
  type : String
  lines : Nat × Nat
  range : SourceRange
  statements : List String
  calls : List String
  defines : List String
  uses : List String
  deriving DecidableEq, Repr

/-- `CFGEdge` (cfg.ts); the source's `from`/`to` fields are `fromId`/`toId`
here (`from` is reserved in Lean).  `type` ranges over the `EdgeType`
literals. -/
structure CFGEdge where
  fromId : Nat
  toId : Nat
  type : String
  condition : Option String
  isBackEdge : Bool
  deriving DecidableEq, Repr

/-- `CFGInfo` (cfg.ts) minus the `toJSON` method.  `nestedFunctions` is
created empty by `CFGBuilder` and never written, so its entries are modelled
with a unit payload (a recursive payload would never be inhabited). -/
structure CFGInfo where
  functionName : String
  filePath : String
  blocks : List CFGBlock
  edges : List CFGEdge
  entryBlock : Nat
  exitBlocks : List Nat
  cyclomaticComplexity : Int
  maxNestingDepth : Nat
  decisionPoints : Nat
  nestedFunctions : List (String × Unit)
  deriving Repr

/-- `calculateCyclomaticComplexity` (cfg.ts): `Math.max(1, E - N + 2 * P)`
with `P = 1`. -/
def calculateCyclomaticComplexity (blocks : List CFGBlock)
    (edges : List CFGEdge) : Int :=
  let E : Int := edges.length
  let N : Int := blocks.length
  let P : Int := 1
  max 1 (E - N + 2 * P)

/-! ## `CFGBuilder` (TypeScript parser)

The builder's instance fields become an explicit state record; block
mutations (`block.statements = ...`, `extractVarsFromNode`) become updates of
the block with that id inside the state's block list. -/

/-- The mutable fields of `CFGBuilder`. -/
structure CFGBuilderState where
  blocks : List CFGBlock
  edges : List CFGEdge
  blockId : Nat
  currentNestingDepth : Nat
  maxNestingDepth : Nat
  decisionPoints : Nat
  deriving Repr

/-- Fresh `CFGBuilder` state (all counters zero, no blocks or edges). -/
def initCFGBuilder : CFGBuilderState :=
  { blocks := [], edges := [], blockId := 0, currentNestingDepth := 0
    maxNestingDepth := 0, decisionPoints := 0 }

/-- `createBlock`: assign the next id, record 1-based lines and range, push
the block; returns the state and the new block's id. -/
def createBlock (st : CFGBuilderState) (type : String) (node : TSNode) :
    CFGBuilderState × Nat :=
  let block : CFGBlock :=
    { id := st.blockId
      type := type
      lines := (node.startPosition.row + 1, node.endPosition.row + 1)
      range :=
        { start := ⟨node.startPosition.row + 1, node.startPosition.column⟩
          stop := ⟨node.endPosition.row + 1, node.endPosition.column⟩ }
      statements := []
      calls := []
      defines := []
      uses := [] }
  ({ st with blocks := st.blocks ++ [block], blockId := st.blockId + 1 }, st.blockId)

/-- `addEdge`. -/
def addEdge (st : CFGBuilderState) (fromId toId : Nat) (type : String)
    (condition : Option String) (isBackEdge : Bool) : CFGBuilderState :=
  { st with
    edges := st.edges ++
      [{ fromId := fromId, toId := toId, type := type, condition := condition
         isBackEdge := isBackEdge }] }

/-- The recurring `for (const predId of predecessors) addEdge(predId, target,
'unconditional')` loop. -/
def addUnconditionalEdges (st : CFGBuilderState) (preds : List Nat)
    (toId : Nat) : CFGBuilderState :=
  preds.foldl (fun s p => addEdge s p toId "unconditional" none false) st

/-- Mutate the block with the given id in place. -/
def updateBlock (st : CFGBuilderState) (id : Nat) (f : CFGBlock → CFGBlock) :
    CFGBuilderState :=
  { st with blocks := st.blocks.map (fun b => if b.id = id then f b else b) }

/-- `block.statements = stmts`. -/
def blockSetStatements (stmts : List String) (b : CFGBlock) : CFGBlock :=
  { b with statements := stmts }

/-- `block.statements.push(s)`. -/
def blockPushStatement (s : String) (b : CFGBlock) : CFGBlock :=
  { b with statements := b.statements ++ [s] }

/-- `getNodeText`: `''` for a missing node, else the trimmed text. -/
def getNodeText (node : Option TSNode) : String :=
  match node with
  | none => ""
  | some n => n.text.trim

/-- `getConditionText`: trimmed text with one pair of outer parens removed. -/
def getConditionText (node : Option TSNode) : String :=
  match node with
  | none => ""
  | some n =>
      let text := n.text.trim
      if text.startsWith "(" && text.endsWith ")" then (text.drop 1).dropRight 1
      else text

/-- `getParentType`: the source's interface has no parent links and always
returns the empty string. -/
def getParentType (_node : TSNode) : String := ""

-- `traverseForVars`: collect defined, used and called identifiers of a
-- subtree into the block (`extractVarsFromNode`'s worker); the child loop is
-- `traverseForVarsList`.
mutual

def traverseForVars (node : TSNode) (block : CFGBlock) : CFGBlock :=
  let block :=
    if node.type = "assignment_expression" then
      match node.children.head? with
      | some left =>
          if left.type = "identifier" then
            if left.text ∈ block.defines then block
            else { block with defines := block.defines ++ [left.text] }
          else block
      | none => block
    else block
  let block :=
    if node.type = "variable_declarator" then
      match node.children.find? (fun c => c.type = "identifier") with
      | some nameNode =>
          if nameNode.text ∈ block.defines then block
          else { block with defines := block.defines ++ [nameNode.text] }
      | none => block
    else block
  let block :=
    if node.type = "identifier" then
      let parent := getParentType node
      if parent ≠ "variable_declarator" ∧ parent ≠ "function_declaration" ∧
          parent ≠ "method_definition" then
        if node.text ∈ block.uses ∨ node.text ∈ block.defines then block
        else { block with uses := block.uses ++ [node.text] }
      else block
    else block
  let block :=
    if node.type = "call_expression" then
      match node.firstChild with
      | some callee =>
          let calleeName :=
            if callee.type = "identifier" then callee.text
            else if callee.type = "member_expression" then
              match callee.children.find? (fun c => c.type = "property_identifier") with
              | some prop => prop.text
              | none => ""
            else ""
          if calleeName ≠ "" ∧ calleeName ∉ block.calls then
            { block with calls := block.calls ++ [calleeName] }
          else block
      | none => block
    else block
  traverseForVarsList node.children block
termination_by (sizeOf node, 0)
decreasing_by
  exact Prod.Lex.left _ _ node.sizeOf_children_lt

def traverseForVarsList (nodes : List TSNode) (block : CFGBlock) : CFGBlock :=
  match nodes with
  | [] => block
  | c :: rest => traverseForVarsList rest (traverseForVars c block)
termination_by (sizeOf nodes, 1)
decreasing_by
  · simp only [List.cons.sizeOf_spec]
    omega
  · exact Prod.Lex.left _ _ (by simp only [List.cons.sizeOf_spec]; omega)

end

/-- `extractVarsFromNode`: run `traverseForVars` against the block `id`. -/
def extractVarsFromNode (st : CFGBuilderState) (id : Nat) (node : TSNode) :
    CFGBuilderState :=
  updateBlock st id (fun b => traverseForVars node b)

/-- `isIgnoredNode`: brace, semicolon and comment tokens. -/
def isIgnoredNode (node : TSNode) : Bool :=
  node.type = "\x7b" || node.type = "\x7d" || node.type = ";" ||
    node.type = "comment"

/-- `decisionPoints++`. -/
def bumpDecision (st : CFGBuilderState) : CFGBuilderState :=
  { st with decisionPoints := st.decisionPoints + 1 }

/-- `currentNestingDepth++` followed by the `maxNestingDepth` update. -/
def enterNested (st : CFGBuilderState) : CFGBuilderState :=
  let d := st.currentNestingDepth + 1
  { st with currentNestingDepth := d, maxNestingDepth := max st.maxNestingDepth d }

/-- `currentNestingDepth--`. -/
def exitNested (st : CFGBuilderState) : CFGBuilderState :=
  { st with currentNestingDepth := st.currentNestingDepth - 1 }

/-- The accumulator step of `processForStatement`'s child scan (`for (init;
cond; update)`): a `;` flips the flag, children before it (other than the
`for` and `(` tokens) land in `initNode` (last wins), the first child after
it other than `)` lands in `condNode`. -/
def forScanStep (acc : Bool × Option TSNode × Option TSNode) (child : TSNode) :
    Bool × Option TSNode × Option TSNode :=
  let (found, ini, cond) := acc
  if child.type = ";" then (true, ini, cond)
  else if ¬found ∧ child.type ≠ "for" ∧ child.type ≠ "(" then
    (found, some child, cond)
  else if found ∧ cond.isNone ∧ child.type ≠ ")" then (found, ini, some child)
  else (found, ini, cond)

/-- `processReturnStatement`: a `return` block fed by the predecessors;
control does not flow on (empty successor frontier). -/
def processReturnStatement (st : CFGBuilderState) (node : TSNode)
    (predecessors : List Nat) : CFGBuilderState × List Nat :=
  let r := createBlock st "return" node
  let st := updateBlock r.1 r.2 (blockSetStatements [getNodeText (some node)])
  let st := extractVarsFromNode st r.2 node
  let st := addUnconditionalEdges st predecessors r.2
  (st, [])

/-- `processThrowStatement`: as `return`, with a `throw` block. -/
def processThrowStatement (st : CFGBuilderState) (node : TSNode)
    (predecessors : List Nat) : CFGBuilderState × List Nat :=
  let r := createBlock st "throw" node
  let st := updateBlock r.1 r.2 (blockSetStatements [getNodeText (some node)])
  let st := extractVarsFromNode st r.2 node
  let st := addUnconditionalEdges st predecessors r.2
  (st, [])

/-- `processBreakContinue`: a `body` block (the source's ternary picks
`'body'` for both), no variable extraction, empty successor frontier. -/
def processBreakContinue (st : CFGBuilderState) (node : TSNode)
    (predecessors : List Nat) : CFGBuilderState × List Nat :=
  let r := createBlock st "body" node
  let st := updateBlock r.1 r.2 (blockSetStatements [getNodeText (some node)])
  let st := addUnconditionalEdges st predecessors r.2
  (st, [])

/-- `processBasicStatement`: one `body` block, frontier is that block. -/
def processBasicStatement (st : CFGBuilderState) (node : TSNode)
    (predecessors : List Nat) : CFGBuilderState × List Nat :=
  let r := createBlock st "body" node
  let st := updateBlock r.1 r.2 (blockSetStatements [getNodeText (some node)])
  let st := extractVarsFromNode st r.2 node
  let st := addUnconditionalEdges st predecessors r.2
  (st, [r.2])

/-- The per-child step of `processSwitchStatement`'s loop over the switch
body (the accumulator carries the state, the fallthrough exits of the
previous case and the collected break exits). -/
def switchCaseStep (branchId : Nat)
    (acc : CFGBuilderState × List Nat × List Nat) (child : TSNode) :
    CFGBuilderState × List Nat × List Nat :=
  if child.type = "switch_case" ∨ child.type = "switch_default" then
    let (st, prevCaseExits, exitBlocks) := acc
    let st := bumpDecision st
    let isDefault := child.type = "switch_default"
    let rC := createBlock st "body" child
    let st := rC.1
    let caseLabel :=
      if isDefault then "default"
      else
        ((child.children.find?
            (fun c => c.type ≠ "case" ∧ c.type ≠ ":")).map
          (fun c => c.text)).getD "case"
    let st := addEdge st branchId rC.2
      (if isDefault then "default" else "case") (some caseLabel) false
    let st :=
      prevCaseExits.foldl
        (fun s p => addEdge s p rC.2 "fallthrough" none false) st
    let stmts :=
      child.children.filter
        (fun c => c.type ≠ "case" ∧ c.type ≠ "default" ∧ c.type ≠ ":")
    let st :=
      if stmts.length > 0 then
        let st := updateBlock st rC.2
          (blockSetStatements (stmts.map (fun s => getNodeText (some s))))
        stmts.foldl (fun s stmt => extractVarsFromNode s rC.2 stmt) st
      else st
    let hasBreak := stmts.any (fun s => s.type = "break_statement")
    if hasBreak then (st, [], exitBlocks ++ [rC.2])
    else (st, [rC.2], exitBlocks)
  else acc

/-- `processSwitchStatement` (no recursion into case bodies: case statements
are only recorded as text and variable references). -/
def processSwitchStatement (st : CFGBuilderState) (node : TSNode)
    (predecessors : List Nat) : CFGBuilderState × List Nat :=
  let st := enterNested st
  let rB := createBlock st "branch" node
  let st := rB.1
  let branchId := rB.2
  let value := node.children.find? (fun c => c.type = "parenthesized_expression")
  let st :=
    match value with
    | some v =>
        extractVarsFromNode
          (updateBlock st branchId (blockSetStatements [getNodeText (some v)]))
          branchId v
    | none => st
  let st := addUnconditionalEdges st predecessors branchId
  let switchBody := node.children.find? (fun c => c.type = "switch_body")
  let result : CFGBuilderState × List Nat :=
    match switchBody with
    | some sb =>
        let fin := sb.children.foldl (switchCaseStep branchId) (st, [], [])
        (fin.1, fin.2.2 ++ fin.2.1)
    | none => (st, [])
  let st := exitNested result.1
  (st, if result.2.length > 0 then result.2 else [branchId])

-- The mutually recursive statement processors of `CFGBuilder`.  Termination
-- is by the size of the processed node (or node list), with a constructor
-- tag as tie-breaker for the dispatch from `processStatement` to the
-- statement-specific processor of the same node.
mutual

/-- `processStatements`: fold `processStatement` over the statement list,
skipping ignored token nodes, threading the predecessor frontier. -/
def processStatements (st : CFGBuilderState) (nodes : List TSNode)
    (predecessors : List Nat) : CFGBuilderState × List Nat :=
  match nodes with
  | [] => (st, predecessors)
  | node :: rest =>
      if isIgnoredNode node then processStatements st rest predecessors
      else
        let r := processStatement st node predecessors
        processStatements r.1 rest r.2
termination_by (sizeOf nodes, 2)
decreasing_by
  all_goals simp_wf
  all_goals apply Prod.Lex.left
  all_goals first
    | omega
    | (simp only [List.cons.sizeOf_spec]; omega)

/-- `processStatement`: dispatch on the node kind. -/
def processStatement (st : CFGBuilderState) (node : TSNode)
    (predecessors : List Nat) : CFGBuilderState × List Nat :=
  if node.type = "if_statement" then processIfStatement st node predecessors
  else if node.type = "for_statement" ∨ node.type = "for_in_statement" ∨
      node.type = "for_of_statement" then
    processForStatement st node predecessors
  else if node.type = "while_statement" then
    processWhileStatement st node predecessors
  else if node.type = "do_statement" then
    processDoWhileStatement st node predecessors
  else if node.type = "switch_statement" then
    processSwitchStatement st node predecessors
  else if node.type = "try_statement" then
    processTryStatement st node predecessors
  else if node.type = "return_statement" then
    processReturnStatement st node predecessors
  else if node.type = "throw_statement" then
    processThrowStatement st node predecessors
  else if node.type = "break_statement" ∨ node.type = "continue_statement" then
    processBreakContinue st node predecessors
  else processBasicStatement st node predecessors
termination_by (sizeOf node, 1)
decreasing_by
  all_goals simp_wf
  all_goals apply Prod.Lex.right
  all_goals omega

/-- `processIfStatement`: branch block for the condition, `true` edge to the
consequent, `false` edge (or recursion) for the `else` clause; with no `else`
the branch block itself joins the successor frontier. -/
def processIfStatement (st : CFGBuilderState) (node : TSNode)
    (predecessors : List Nat) : CFGBuilderState × List Nat :=
  let st := enterNested (bumpDecision st)
  let rB := createBlock st "branch" node
  let st := rB.1
  let branchId := rB.2
  let condition := node.children.find? (fun c => c.type = "parenthesized_expression")
  let st :=
    match condition with
    | some c =>
        extractVarsFromNode
          (updateBlock st branchId (blockSetStatements [getNodeText (some c)]))
          branchId c
    | none => st
  let st := addUnconditionalEdges st predecessors branchId
  let res1 : CFGBuilderState × List Nat :=
    match hc : node.children.find?
        (fun c => c.type = "statement_block" ∨
          (c.type ≠ "parenthesized_expression" ∧ c.type ≠ "else_clause" ∧
            c.type ≠ "if" ∧ c.type ≠ "(" ∧ c.type ≠ ")")) with
    | some consequence =>
        let rT := createBlock st "body" consequence
        let st := addEdge rT.1 branchId rT.2 "true"
          (some (getConditionText condition)) false
        if consequence.type = "statement_block" then
          processStatements st consequence.children [rT.2]
        else
          let st :=
            extractVarsFromNode
              (updateBlock st rT.2
                (blockSetStatements [getNodeText (some consequence)]))
              rT.2 consequence
          (st, [rT.2])
    | none => (st, [])
  let st := res1.1
  let exitBlocks1 := res1.2
  let res2 : CFGBuilderState × List Nat :=
    match he : node.children.find? (fun c => c.type = "else_clause") with
    | some elseClause =>
        match hb : elseClause.children.find?
            (fun c => c.type = "statement_block" ∨ c.type = "if_statement" ∨
              c.type ≠ "else") with
        | some elseBody =>
            if elseBody.type = "if_statement" then
              let r := processIfStatement st elseBody [branchId]
              (r.1, exitBlocks1 ++ r.2)
            else
              let rE := createBlock st "body" elseBody
              let st := addEdge rE.1 branchId rE.2 "false"
                (some ("!(" ++ getConditionText condition ++ ")")) false
              if elseBody.type = "statement_block" then
                let r := processStatements st elseBody.children [rE.2]
                (r.1, exitBlocks1 ++ r.2)
              else
                let st :=
                  extractVarsFromNode
                    (updateBlock st rE.2
                      (blockSetStatements [getNodeText (some elseBody)]))
                    rE.2 elseBody
                (st, exitBlocks1 ++ [rE.2])
        | none => (st, exitBlocks1)
    | none => (st, exitBlocks1 ++ [branchId])
  (exitNested res2.1, res2.2)
termination_by (sizeOf node, 0)
decreasing_by
  · simp_wf
    exact Prod.Lex.left _ _ (TSNode.sizeOf_children_lt_of_find? hc)
  · simp_wf
    exact Prod.Lex.left _ _
      (TSNode.sizeOf_lt₂ (List.mem_of_find?_eq_some he)
        (List.mem_of_find?_eq_some hb))
  · simp_wf
    exact Prod.Lex.left _ _
      (TSNode.sizeOf_children_lt₂ (List.mem_of_find?_eq_some he)
        (List.mem_of_find?_eq_some hb))

/-- `processForStatement` (also `for-in`/`for-of`): header block collecting
init and condition, `true` edge to the loop body, back edges from every body
exit to the header; the header is the loop's exit frontier. -/
def processForStatement (st : CFGBuilderState) (node : TSNode)
    (predecessors : List Nat) : CFGBuilderState × List Nat :=
  let st := enterNested (bumpDecision st)
  let rH := createBlock st "loop_header" node
  let st := rH.1
  let headerId := rH.2
  let scanned :=
    if node.type = "for_statement" then
      node.children.foldl forScanStep (false, none, none)
    else
      (false, none,
        node.children.find?
          (fun c => c.type ≠ "for" ∧ c.type ≠ "(" ∧ c.type ≠ ")" ∧
            c.type ≠ "statement_block"))
  let initNode := scanned.2.1
  let condNode := scanned.2.2
  -- The source assigns `body` on every `statement_block` child (last one
  -- wins); for `for-in`/`for-of` it uses `.find` (first one).  Both agree on
  -- tree-sitter trees, which have a single statement block.
  let body :=
    if node.type = "for_statement" then
      (node.children.filter (fun c => c.type = "statement_block")).getLast?
    else node.children.find? (fun c => c.type = "statement_block")
  let st :=
    match initNode with
    | some i =>
        extractVarsFromNode
          (updateBlock st headerId (blockPushStatement (getNodeText (some i))))
          headerId i
    | none => st
  let st :=
    match condNode with
    | some c =>
        extractVarsFromNode
          (updateBlock st headerId (blockPushStatement (getNodeText (some c))))
          headerId c
    | none => st
  let st := addUnconditionalEdges st predecessors headerId
  let st :=
    match hb : body with
    | some b =>
        let rB := createBlock st "loop_body" b
        let st := addEdge rB.1 headerId rB.2 "true"
          (some (getNodeText condNode)) false
        let r := processStatements st b.children [rB.2]
        r.2.foldl (fun s e => addEdge s e headerId "back_edge" none true) r.1
    | none => st
  (exitNested st, [headerId])
termination_by (sizeOf node, 0)
decreasing_by
  simp_wf
  apply Prod.Lex.left
  apply TSNode.sizeOf_children_lt_of_mem
  unfold body at hb
  split at hb
  · exact List.mem_of_mem_filter (mem_of_getLast?_eq_some hb)
  · exact List.mem_of_find?_eq_some hb

/-- `processWhileStatement`: as `for` without an init statement. -/
def processWhileStatement (st : CFGBuilderState) (node : TSNode)
    (predecessors : List Nat) : CFGBuilderState × List Nat :=
  let st := enterNested (bumpDecision st)
  let rH := createBlock st "loop_header" node
  let st := rH.1
  let headerId := rH.2
  let condition := node.children.find? (fun c => c.type = "parenthesized_expression")
  let st :=
    match condition with
    | some c =>
        extractVarsFromNode
          (updateBlock st headerId (blockSetStatements [getNodeText (some c)]))
          headerId c
    | none => st
  let st := addUnconditionalEdges st predecessors headerId
  let st :=
    match hb : node.children.find? (fun c => c.type = "statement_block") with
    | some b =>
        let rB := createBlock st "loop_body" b
        let st := addEdge rB.1 headerId rB.2 "true"
          (some (getConditionText condition)) false
        let r := processStatements st b.children [rB.2]
        r.2.foldl (fun s e => addEdge s e headerId "back_edge" none true) r.1
    | none => st
  (exitNested st, [headerId])
termination_by (sizeOf node, 0)
decreasing_by
  simp_wf
  exact Prod.Lex.left _ _ (TSNode.sizeOf_children_lt_of_find? hb)

/-- `processDoWhileStatement`: body first, then the header, with a back edge
from the header to the body. -/
def processDoWhileStatement (st : CFGBuilderState) (node : TSNode)
    (predecessors : List Nat) : CFGBuilderState × List Nat :=
  let st := enterNested (bumpDecision st)
  let body := node.children.find? (fun c => c.type = "statement_block")
  let rB := createBlock st "loop_body" (body.getD node)
  let st := rB.1
  let bodyId := rB.2
  let st := addUnconditionalEdges st predecessors bodyId
  let res : CFGBuilderState × List Nat :=
    match hb : node.children.find? (fun c => c.type = "statement_block") with
    | some b => processStatements st b.children [bodyId]
    | none => (st, [bodyId])
  let st := res.1
  let bodyExits := res.2
  let condition := node.children.find? (fun c => c.type = "parenthesized_expression")
  let rH := createBlock st "loop_header" node
  let st := rH.1
  let headerId := rH.2
  let st :=
    match condition with
    | some c =>
        extractVarsFromNode
          (updateBlock st headerId (blockSetStatements [getNodeText (some c)]))
          headerId c
    | none => st
  let st := addUnconditionalEdges st bodyExits headerId
  let st := addEdge st headerId bodyId "back_edge"
    (some (getConditionText condition)) true
  (exitNested st, [headerId])
termination_by (sizeOf node, 0)
decreasing_by
  simp_wf
  exact Prod.Lex.left _ _ (TSNode.sizeOf_children_lt_of_find? hb)

/-- `processTryStatement`: `try` block, `catch` block reached by a `throw`
edge from the first `try` block in the whole block list, `finally` block
absorbing all previous exits. -/
def processTryStatement (st : CFGBuilderState) (node : TSNode)
    (predecessors : List Nat) : CFGBuilderState × List Nat :=
  let st := enterNested st
  let tryBody := node.children.find? (fun c => c.type = "statement_block")
  let res1 : CFGBuilderState × List Nat :=
    match h1 : node.children.find? (fun c => c.type = "statement_block") with
    | some tb =>
        let rT := createBlock st "try" tb
        let st := addUnconditionalEdges rT.1 predecessors rT.2
        processStatements st tb.children [rT.2]
    | none => (st, [])
  let st := res1.1
  let exits1 := res1.2
  let res2 : CFGBuilderState × List Nat :=
    match h2 : node.children.find? (fun c => c.type = "catch_clause") with
    | some cc =>
        match h3 : cc.children.find? (fun c => c.type = "statement_block") with
        | some cb =>
            let rC := createBlock st "catch" cb
            let st := rC.1
            let st :=
              if tryBody.isSome then
                match (st.blocks.find? (fun b => b.type = "try")).map
                    (fun b => b.id) with
                | some tryBlockId => addEdge st tryBlockId rC.2 "throw" none false
                | none => st
              else st
            let r := processStatements st cb.children [rC.2]
            (r.1, exits1 ++ r.2)
        | none => (st, exits1)
    | none => (st, exits1)
  let st := res2.1
  let exits2 := res2.2
  let res3 : CFGBuilderState × List Nat :=
    match h4 : node.children.find? (fun c => c.type = "finally_clause") with
    | some fc =>
        match h5 : fc.children.find? (fun c => c.type = "statement_block") with
        | some fb =>
            let rF := createBlock st "finally" fb
            let st := addUnconditionalEdges rF.1 exits2 rF.2
            processStatements st fb.children [rF.2]
        | none => (st, exits2)
    | none => (st, exits2)
  (exitNested res3.1, res3.2)
termination_by (sizeOf node, 0)
decreasing_by
  · simp_wf
    exact Prod.Lex.left _ _ (TSNode.sizeOf_children_lt_of_find? h1)
  · simp_wf
    exact Prod.Lex.left _ _
      (TSNode.sizeOf_children_lt₂ (List.mem_of_find?_eq_some h2)
        (List.mem_of_find?_eq_some h3))
  · simp_wf
    exact Prod.Lex.left _ _
      (TSNode.sizeOf_children_lt₂ (List.mem_of_find?_eq_some h4)
        (List.mem_of_find?_eq_some h5))

end

/-- `buildFromBody`: entry block, then either the statement-block walk ending
in a synthesized `exit` block absorbing the dangling frontier, or — for an
expression-bodied arrow function — a single `return` block wired
`entry → return → exit` (the return-to-exit edge has type `return`). -/
def buildFromBody (st : CFGBuilderState) (bodyNode : TSNode) : CFGBuilderState :=
  let r := createBlock st "entry" bodyNode
  let st := r.1
  let entryId := r.2
  if bodyNode.type = "statement_block" then
    let r2 := processStatements st bodyNode.children [entryId]
    let r3 := createBlock r2.1 "exit" bodyNode
    addUnconditionalEdges r3.1 r2.2 r3.2
  else
    let r2 := createBlock st "return" bodyNode
    let st := updateBlock r2.1 r2.2 (blockSetStatements [getNodeText (some bodyNode)])
    let st := extractVarsFromNode st r2.2 bodyNode
    let st := addEdge st entryId r2.2 "unconditional" none false
    let r3 := createBlock st "exit" bodyNode
    addEdge r3.1 r2.2 r3.2 "return" none false

/-- `getCFG`: entry id (`?? 0`), exit ids (`exit`/`return`/`throw` blocks, or
all blocks without outgoing edges when there are none), and the complexity
computed by `calculateCyclomaticComplexity` over the builder's blocks and
edges. -/
def getCFG (functionName filePath : String) (st : CFGBuilderState) : CFGInfo :=
  let entryBlock :=
    ((st.blocks.find? (fun b => b.type = "entry")).map (fun b => b.id)).getD 0
  let exitBlocks0 :=
    (st.blocks.filter
      (fun b => b.type = "exit" ∨ b.type = "return" ∨ b.type = "throw")).map
      (fun b => b.id)
  let exitBlocks :=
    if exitBlocks0.length = 0 then
      (st.blocks.filter
        (fun b => ¬ st.edges.any (fun e => e.fromId = b.id))).map (fun b => b.id)
    else exitBlocks0
  { functionName := functionName
    filePath := filePath
    blocks := st.blocks
    edges := st.edges
    entryBlock := entryBlock
    exitBlocks := exitBlocks
    cyclomaticComplexity := calculateCyclomaticComplexity st.blocks st.edges
    maxNestingDepth := st.maxNestingDepth
    decisionPoints := st.decisionPoints
    nestedFunctions := [] }

/-- `extractCFG` after the function body has been located: run the builder on
the body node and package the result. -/
def cfgOfBody (functionName filePath : String) (bodyNode : TSNode) : CFGInfo :=
  getCFG functionName filePath (buildFromBody initCFGBuilder bodyNode)

/-! ## L4 DFG data model and `DFGBuilder` (TypeScript parser) -/

/-- The `location` field of a `VarRef` (`{ line, column }`). -/
structure RefLoc where
  line : Nat
  column : Nat
  deriving DecidableEq, Repr

/-- `VarRef` (dfg types).  `type` ranges over the `RefType` literals
`def | use | update | param | capture`. -/
structure VarRef where
  name : String
  type : String
  line : Nat
  column : Nat
  location : RefLoc
  scope : String
  isInClosure : Bool
  expression : Option String
  deriving DecidableEq, Repr

/-- `DefUseEdge` (dfg types); the source's `def`/`use` fields are
`defRef`/`useRef` here (`def` is reserved in Lean), `variable` is
`varName`. -/
structure DefUseEdge where
  varName : String
  defRef : VarRef
  useRef : VarRef
  isMayReach : Bool
  hasInterveningDef : Bool
  deriving DecidableEq, Repr

/-- `DFGInfo` (dfg types) minus the serialisation methods; the source's
`variables` field is `vars` here (`variables` is reserved in Lean);
`reachingDefs` and `liveVars` are created as empty maps by `getDFG`. -/
structure DFGInfo where
  functionName : String
  filePath : String
  refs : List VarRef
  edges : List DefUseEdge
  vars : List String
  parameters : List VarRef
  returns : List VarRef
  reachingDefs : List (String × List VarRef)
  liveVars : List (String × List String)
  deriving Repr

/-- The mutable fields of `DFGBuilder` except `edges`, which only
`buildDefUseEdges` writes (it is produced separately below); the source's
`variables` set is `vars`. -/
structure DFGState where
  refs : List VarRef
  vars : List String
  parameters : List VarRef
  returns : List VarRef
  currentScope : String
  defMap : List (String × List VarRef)
  deriving Repr

/-- Fresh `DFGBuilder` state (`currentScope` starts as the function name). -/
def initDFGBuilder (functionName : String) : DFGState :=
  { refs := [], vars := [], parameters := [], returns := []
    currentScope := functionName, defMap := [] }

/-- `createRef`: build the `VarRef`, push it onto `refs` and record the name
in `variables`; returns the state and the ref. -/
def createRef (st : DFGState) (node : TSNode) (type : String) :
    DFGState × VarRef :=
  let ref : VarRef :=
    { name := node.text
      type := type
      line := node.startPosition.row + 1
      column := node.startPosition.column
      location := ⟨node.startPosition.row + 1, node.startPosition.column⟩
      scope := st.currentScope
      isInClosure := false
      expression := none }
  ({ st with refs := st.refs ++ [ref], vars := pushUnique st.vars node.text },
    ref)

/-- `addDefinition`: push the ref onto `defMap[name]`. -/
def addDefinition (st : DFGState) (name : String) (ref : VarRef) : DFGState :=
  { st with defMap := mapSet st.defMap name ((mapGet st.defMap name).getD [] ++ [ref]) }

/-- `extractParameters`: one `param` ref per parameter identifier, seeded
into `parameters` and `defMap`. -/
def extractParameters (st : DFGState) (paramsNode : TSNode) : DFGState :=
  paramsNode.children.foldl
    (fun st child =>
      if child.type = "required_parameter" ∨ child.type = "optional_parameter" ∨
          child.type = "rest_parameter" then
        match child.children.find? (fun c => c.type = "identifier") with
        | some nameNode =>
            let r := createRef st nameNode "param"
            let st := { r.1 with parameters := r.1.parameters ++ [r.2] }
            addDefinition st nameNode.text r.2
        | none => st
      else st)
    st

/-- `processIdentifier`: skip the built-in identifier set, else record a ref
of the given type. -/
def processIdentifier (st : DFGState) (node : TSNode) (type : String) : DFGState :=
  let builtins : List String :=
    ["true", "false", "null", "undefined", "this", "super",
     "console", "Math", "Object", "Array", "String", "Number",
     "Boolean", "Error", "Promise", "JSON", "Date", "RegExp"]
  if node.text ∈ builtins then st
  else (createRef st node type).1

/-- `processUpdate`: the operand of `x++`/`++x` is an `update` ref recorded
as a definition. -/
def processUpdate (st : DFGState) (node : TSNode) : DFGState :=
  match node.children.find? (fun c => c.type = "identifier") with
  | some operand =>
      let r := createRef st operand "update"
      addDefinition r.1 operand.text r.2
  | none => st

-- The inner `collectVars` recursion of `processNestedFunction`: all
-- identifier texts of the subtree, and the names defined by its variable
-- declarators and formal parameters; the child loop is `collectVarsList`.
mutual

def collectVars (node : TSNode) (acc : List String × List String) :
    List String × List String :=
  let acc :=
    if node.type = "identifier" then (pushUnique acc.1 node.text, acc.2) else acc
  let acc :=
    if node.type = "variable_declarator" then
      match node.children.find? (fun c => c.type = "identifier") with
      | some nameNode => (acc.1, pushUnique acc.2 nameNode.text)
      | none => acc
    else acc
  let acc :=
    if node.type = "formal_parameters" then
      node.children.foldl
        (fun acc c =>
          match c.children.find? (fun cc => cc.type = "identifier") with
          | some nameNode => (acc.1, pushUnique acc.2 nameNode.text)
          | none => acc)
        acc
    else acc
  collectVarsList node.children acc
termination_by (sizeOf node, 0)
decreasing_by
  exact Prod.Lex.left _ _ node.sizeOf_children_lt

def collectVarsList (nodes : List TSNode) (acc : List String × List String) :
    List String × List String :=
  match nodes with
  | [] => acc
  | c :: rest => collectVarsList rest (collectVars c acc)
termination_by (sizeOf nodes, 1)
decreasing_by
  · simp only [List.cons.sizeOf_spec]
    omega
  · exact Prod.Lex.left _ _ (by simp only [List.cons.sizeOf_spec]; omega)

end

/-- `processNestedFunction`: identifiers used but not defined in the nested
function, and known in the enclosing scope, become `capture` refs on the
enclosing function; the walker does not descend further. -/
def processNestedFunction (st : DFGState) (node : TSNode) : DFGState :=
  let vars := collectVars node ([], [])
  let nestedVars := vars.1
  let nestedDefs := vars.2
  nestedVars.foldl
    (fun st v =>
      if v ∉ nestedDefs ∧ v ∈ st.vars then
        let ref : VarRef :=
          { name := v
            type := "capture"
            line := node.startPosition.row + 1
            column := node.startPosition.column
            location := ⟨node.startPosition.row + 1, node.startPosition.column⟩
            scope := st.currentScope
            isInClosure := true
            expression := some "closure capture" }
        { st with refs := st.refs ++ [ref] }
      else st)
    st

-- The mutually recursive walkers of `DFGBuilder.traverse`.  The `for`
-- loops over children become the `...List` helpers.
mutual

/-- `traverse(node, inAssignmentLHS)`: dispatch on the node kind; nested
arrow/function expressions are handled by `processNestedFunction` without
descending further. -/
def dfgTraverse (st : DFGState) (node : TSNode) (inAssignmentLHS : Bool) :
    DFGState :=
  if node.type = "lexical_declaration" ∨ node.type = "variable_declaration" then
    processVariableDeclaration st node
  else if node.type = "assignment_expression" then processAssignment st node
  else if node.type = "update_expression" then processUpdate st node
  else if node.type = "identifier" then
    if inAssignmentLHS then st else processIdentifier st node "use"
  else if node.type = "return_statement" then processReturn st node
  else if node.type = "arrow_function" ∨ node.type = "function_expression" then
    processNestedFunction st node
  else dfgTraverseList st node.children inAssignmentLHS
termination_by (sizeOf node, 1)
decreasing_by
  all_goals first
    | exact Prod.Lex.right _ (by omega)
    | exact Prod.Lex.left _ _ node.sizeOf_children_lt

/-- The `for (const child of node.children) traverse(child, ...)` loop. -/
def dfgTraverseList (st : DFGState) (nodes : List TSNode)
    (inAssignmentLHS : Bool) : DFGState :=
  match nodes with
  | [] => st
  | c :: rest => dfgTraverseList (dfgTraverse st c inAssignmentLHS) rest inAssignmentLHS
termination_by (sizeOf nodes, 0)
decreasing_by
  · exact Prod.Lex.left _ _ (by simp only [List.cons.sizeOf_spec]; omega)
  · simp only [List.cons.sizeOf_spec]
    exact Prod.Lex.left _ _ (by omega)

/-- `processVariableDeclaration`: each declarator's identifier is a `def`;
the initializer (first child that is not the name, `=` or a type annotation)
is traversed for uses. -/
def processVariableDeclaration (st : DFGState) (node : TSNode) : DFGState :=
  processDeclaratorList st node.children
termination_by (sizeOf node, 0)
decreasing_by
  exact Prod.Lex.left _ _ node.sizeOf_children_lt

/-- The declarator loop of `processVariableDeclaration`. -/
def processDeclaratorList (st : DFGState) (nodes : List TSNode) : DFGState :=
  match nodes with
  | [] => st
  | child :: rest =>
      if child.type = "variable_declarator" then
        let st :=
          match child.children.find? (fun c => c.type = "identifier") with
          | some nn =>
              let r := createRef st nn "def"
              addDefinition r.1 nn.text r.2
          | none => st
        let st :=
          match hv : child.children.find?
              (fun c => c.type ≠ "identifier" ∧ c.type ≠ "=" ∧
                c.type ≠ "type_annotation") with
          | some vn => dfgTraverse st vn false
          | none => st
        processDeclaratorList st rest
      else processDeclaratorList st rest
termination_by (sizeOf nodes, 0)
decreasing_by
  · exact Prod.Lex.left _ _
      (lt_of_lt_of_le (TSNode.sizeOf_lt_of_mem (List.mem_of_find?_eq_some hv))
        (by simp only [List.cons.sizeOf_spec]; omega))
  · simp only [List.cons.sizeOf_spec]
    exact Prod.Lex.left _ _ (by omega)
  · simp only [List.cons.sizeOf_spec]
    exact Prod.Lex.left _ _ (by omega)

/-- `processAssignment`: an identifier left side is a `def`; any other left
side is traversed with the LHS flag set; the right side (child index 2,
after `=`) is traversed for uses. -/
def processAssignment (st : DFGState) (node : TSNode) : DFGState :=
  let st :=
    match hl : node.children.head? with
    | some l =>
        if l.type = "identifier" then
          let r := createRef st l "def"
          addDefinition r.1 l.text r.2
        else dfgTraverse st l true
    | none => st
  match hr : node.children[2]? with
  | some r => dfgTraverse st r false
  | none => st
termination_by (sizeOf node, 0)
decreasing_by
  · exact Prod.Lex.left _ _
      (TSNode.sizeOf_lt_of_mem (mem_of_head?_eq_some hl))
  · exact Prod.Lex.left _ _
      (TSNode.sizeOf_lt_of_mem (mem_of_getElem?_eq_some hr))

/-- `processReturn`: traverse every non-keyword child for uses; an
identifier child additionally gets a second `use` ref pushed onto `returns`
(note: `createRef` applies no built-in filter). -/
def processReturn (st : DFGState) (node : TSNode) : DFGState :=
  processReturnList st node.children
termination_by (sizeOf node, 0)
decreasing_by
  exact Prod.Lex.left _ _ node.sizeOf_children_lt

/-- The child loop of `processReturn`. -/
def processReturnList (st : DFGState) (nodes : List TSNode) : DFGState :=
  match nodes with
  | [] => st
  | child :: rest =>
      if child.type ≠ "return" then
        let st := dfgTraverse st child false
        let st :=
          if child.type = "identifier" then
            let r := createRef st child "use"
            { r.1 with returns := r.1.returns ++ [r.2] }
          else st
        processReturnList st rest
      else processReturnList st rest
termination_by (sizeOf nodes, 0)
decreasing_by
  · exact Prod.Lex.left _ _ (by simp only [List.cons.sizeOf_spec]; omega)
  · simp only [List.cons.sizeOf_spec]
    exact Prod.Lex.left _ _ (by omega)
  · simp only [List.cons.sizeOf_spec]
    exact Prod.Lex.left _ _ (by omega)

end

/-- The edges `buildDefUseEdges` emits for one use: every definition of the
same variable on a line `≤` the use's line, flagged when some other
definition lies strictly between the two lines. -/
def edgesForUse (defs : List VarRef) (use : VarRef) : List DefUseEdge :=
  (defs.filter (fun d => d.line ≤ use.line)).map
    (fun d =>
      let hasIntervening := defs.any (fun d2 => d2.line > d.line ∧ d2.line < use.line)
      { varName := use.name
        defRef := d
        useRef := use
        isMayReach := hasIntervening
        hasInterveningDef := hasIntervening })

/-- `buildDefUseEdges`: for each `use`/`update`/`capture` ref, emit one edge
per reaching definition from `defMap` (the source pushes onto the builder's
initially-empty `edges` array; the embedding returns that array). -/
def buildDefUseEdges (st : DFGState) : List DefUseEdge :=
  (st.refs.filter
      (fun r => r.type = "use" ∨ r.type = "update" ∨ r.type = "capture")).flatMap
    (fun use => edgesForUse ((mapGet st.defMap use.name).getD []) use)

/-- `processNode`: traverse the body, then build the def-use edges. -/
def processNode (st : DFGState) (node : TSNode) : DFGState × List DefUseEdge :=
  let st := dfgTraverse st node false
  (st, buildDefUseEdges st)

/-- `getDFG`: package the builder state (empty `reachingDefs`/`liveVars`). -/
def getDFG (functionName filePath : String) (st : DFGState)
    (edges : List DefUseEdge) : DFGInfo :=
  { functionName := functionName
    filePath := filePath
    refs := st.refs
    edges := edges
    vars := st.vars
    parameters := st.parameters
    returns := st.returns
    reachingDefs := []
    liveVars := [] }

/-- `extractDFG` after the function node has been located: seed the
parameters (when a `formal_parameters` child exists), process the body,
package the result. -/
def dfgOfBody (functionName filePath : String) (paramsNode : Option TSNode)
    (bodyNode : TSNode) : DFGInfo :=
  let st := initDFGBuilder functionName
  let st :=
    match paramsNode with
    | some p => extractParameters st p
    | none => st
  let r := processNode st bodyNode
  getDFG functionName filePath r.1 r.2

/-! ## L5 PDG data model and backward slicer
(`eddacraft-distil-lsp` module plan, `types/pdg.ts` source) -/

/-- `PDGNode` (pdg.ts).  `type` ranges over
`entry | statement | predicate | exit`. -/
structure PDGNode where
  id : Nat
  line : Nat
  statement : String
  type : String
  defines : List String
  uses : List String
  cfgBlockId : Option Nat
  deriving DecidableEq, Repr

/-- `PDGEdge` (pdg.ts); `from`/`to`/`variable` are `fromId`/`toId`/`varName`
here.  `type` ranges over `control | data | anti | output`. -/
structure PDGEdge where
  fromId : Nat
  toId : Nat
  type : String
  varName : Option String
  label : String
  deriving DecidableEq, Repr

/-- The fields of a `PDGInfo` that `computeBackwardSlice` reads. -/
structure PDGGraph where
  nodes : List PDGNode
  edges : List PDGEdge
  deriving Repr

/-- The edge filter inside `computeBackwardSlice`'s `traverse`: a `data` edge
with a different variable than the criterion is skipped (`continue`) unless
its source node defines a variable the target node uses.  `varCrit` is the
optional `variable` argument of the source (`variable` is reserved in
Lean). -/
def sliceEdgeAllowed (pdg : PDGGraph) (varCrit : Option String)
    (edge : PDGEdge) (node : PDGNode) : Bool :=
  match varCrit with
  | some v =>
      if edge.type = "data" ∧ edge.varName ≠ some v then
        match pdg.nodes.find? (fun n => n.id = edge.fromId) with
        | some sourceNode => sourceNode.defines.any (fun d => d ∈ node.uses)
        | none => false
      else true
  | none => true

/-- The `traverse` recursion of `computeBackwardSlice` with its stack made
explicit (the recursive source traversal and this worklist produce the same
`visited` and `slice` sets: both close the start set under incoming allowed
edges): pop an id; skip it when visited; otherwise mark it visited, add the
node's line to the slice when the id resolves, and push the sources of its
allowed incoming edges. -/
def sliceLoop (pdg : PDGGraph) (varCrit : Option String) :
    List Nat → List Nat → List Nat → List Nat × List Nat
  | [], visited, slice => (visited, slice)
  | nodeId :: rest, visited, slice =>
      if hv : nodeId ∈ visited then sliceLoop pdg varCrit rest visited slice
      else
        let visited' := visited ++ [nodeId]
        -- The guard states, for the termination measure, exactly when the
        -- `find?` below succeeds: when the popped id occurs among the node
        -- ids.  When it does not, `find?` returns `none` and the source
        -- takes the same path as the guard's else branch.
        if hmem : nodeId ∈ pdg.nodes.map (fun n => n.id) then
          match pdg.nodes.find? (fun n => n.id = nodeId) with
          | none => sliceLoop pdg varCrit rest visited' slice
          | some node =>
              let slice' := pushUnique slice node.line
              let incomingEdges := pdg.edges.filter (fun e => e.toId = nodeId)
              let next :=
                (incomingEdges.filter
                    (fun e => sliceEdgeAllowed pdg varCrit e node)).map
                  (fun e => e.fromId)
              sliceLoop pdg varCrit (next ++ rest) visited' slice'
        else sliceLoop pdg varCrit rest visited' slice
termination_by worklist visited _ =>
  ((pdg.nodes.map (fun n => n.id)).toFinset \ visited.toFinset).card *
    (pdg.edges.length + 1) + worklist.length
decreasing_by
  · simp only [List.length_cons]
    omega
  · have hsub :
        ((pdg.nodes.map (fun n => n.id)).toFinset \
            (visited ++ [nodeId]).toFinset).card ≤
          ((pdg.nodes.map (fun n => n.id)).toFinset \ visited.toFinset).card := by
      apply Finset.card_le_card
      apply Finset.sdiff_subset_sdiff (le_refl _)
      intro x hx
      simp only [List.mem_toFinset] at *
      exact List.mem_append_left _ hx
    have hmul := Nat.mul_le_mul_right (pdg.edges.length + 1) hsub
    simp only [List.length_cons]
    omega
  · have hid : nodeId ∈ (pdg.nodes.map (fun n => n.id)).toFinset :=
      List.mem_toFinset.mpr hmem
    have hsubset :
        ((pdg.nodes.map (fun n => n.id)).toFinset \
            (visited ++ [nodeId]).toFinset) ⊆
          ((pdg.nodes.map (fun n => n.id)).toFinset \ visited.toFinset) := by
      apply Finset.sdiff_subset_sdiff (le_refl _)
      intro x hx
      simp only [List.mem_toFinset] at *
      exact List.mem_append_left _ hx
    have hmemdiff : nodeId ∈
        ((pdg.nodes.map (fun n => n.id)).toFinset \ visited.toFinset) := by
      simp only [Finset.mem_sdiff, List.mem_toFinset]
      exact ⟨hmem, hv⟩
    have hnot : nodeId ∉
        ((pdg.nodes.map (fun n => n.id)).toFinset \
          (visited ++ [nodeId]).toFinset) := by
      simp [List.mem_toFinset]
    have hss := (Finset.ssubset_iff_of_subset hsubset).mpr ⟨nodeId, hmemdiff, hnot⟩
    have hcard := Finset.card_lt_card hss
    have hm :
        (((pdg.nodes.map (fun n => n.id)).toFinset \
              (visited ++ [nodeId]).toFinset).card + 1) * (pdg.edges.length + 1) ≤
          ((pdg.nodes.map (fun n => n.id)).toFinset \ visited.toFinset).card *
            (pdg.edges.length + 1) :=
      Nat.mul_le_mul_right _ hcard
    have hnext :
        ((pdg.edges.filter (fun e => e.toId = nodeId)).filter
            (fun e => sliceEdgeAllowed pdg varCrit e node)).length ≤
          pdg.edges.length :=
      le_trans (List.length_filter_le _ _) (List.length_filter_le _ _)
    simp only [List.length_append, List.length_map, List.length_cons, add_mul,
      one_mul] at *
    omega
  · have hsub :
        ((pdg.nodes.map (fun n => n.id)).toFinset \
            (visited ++ [nodeId]).toFinset).card ≤
          ((pdg.nodes.map (fun n => n.id)).toFinset \ visited.toFinset).card := by
      apply Finset.card_le_card
      apply Finset.sdiff_subset_sdiff (le_refl _)
      intro x hx
      simp only [List.mem_toFinset] at *
      exact List.mem_append_left _ hx
    have hmul := Nat.mul_le_mul_right (pdg.edges.length + 1) hsub
    simp only [List.length_cons]
    omega

/-- `computeBackwardSlice(pdg, line, varCrit)`: seed with the nodes on the
criterion line (restricted to those using or defining the variable when one
is given) and traverse incoming dependence edges; the slice is the set of
lines of visited nodes. -/
def computeBackwardSlice (pdg : PDGGraph) (line : Nat)
    (varCrit : Option String) : List Nat :=
  let startNodes :=
    pdg.nodes.filter
      (fun n =>
        decide (n.line = line) &&
          (match varCrit with
           | some v => decide (v ∈ n.uses) || decide (v ∈ n.defines)
           | none => true))
  (sliceLoop pdg varCrit (startNodes.map (fun n => n.id)) [] []).2

/-! ## Concrete inputs used by counterexamples and witnesses -/

/-- An expression-bodied arrow function body: the single identifier `x`. -/
def exExprBody : TSNode := .mk "identifier" "x" ⟨0, 0⟩ ⟨0, 1⟩ []

/-- A statement-block body `{ return x; }`. -/
def exReturnBody : TSNode :=
  .mk "statement_block" "\x7b return x; \x7d" ⟨0, 0⟩ ⟨0, 14⟩
    [.mk "\x7b" "\x7b" ⟨0, 0⟩ ⟨0, 1⟩ [],
     .mk "return_statement" "return x" ⟨0, 2⟩ ⟨0, 10⟩
       [.mk "return" "return" ⟨0, 2⟩ ⟨0, 8⟩ [],
        .mk "identifier" "x" ⟨0, 9⟩ ⟨0, 10⟩ []],
     .mk "\x7d" "\x7d" ⟨0, 13⟩ ⟨0, 14⟩ []]

/-- A statement-block body whose only statement is `x = x + 1` (line 2 of
the file: tree-sitter row 1). -/
def exSelfAssignBody : TSNode :=
  .mk "statement_block" "\x7b x = x + 1; \x7d" ⟨1, 0⟩ ⟨1, 14⟩
    [.mk "expression_statement" "x = x + 1;" ⟨1, 0⟩ ⟨1, 10⟩
      [.mk "assignment_expression" "x = x + 1" ⟨1, 0⟩ ⟨1, 9⟩
        [.mk "identifier" "x" ⟨1, 0⟩ ⟨1, 1⟩ [],
         .mk "=" "=" ⟨1, 2⟩ ⟨1, 3⟩ [],
         .mk "binary_expression" "x + 1" ⟨1, 4⟩ ⟨1, 9⟩
           [.mk "identifier" "x" ⟨1, 4⟩ ⟨1, 5⟩ [],
            .mk "+" "+" ⟨1, 6⟩ ⟨1, 7⟩ [],
            .mk "number" "1" ⟨1, 8⟩ ⟨1, 9⟩ []]]]]

/-- A statement-block body whose only statement is `return Math;`. -/
def exReturnMathBody : TSNode :=
  .mk "statement_block" "\x7b return Math; \x7d" ⟨0, 0⟩ ⟨0, 16⟩
    [.mk "return_statement" "return Math" ⟨1, 0⟩ ⟨1, 11⟩
      [.mk "return" "return" ⟨1, 0⟩ ⟨1, 6⟩ [],
       .mk "identifier" "Math" ⟨1, 7⟩ ⟨1, 11⟩ [],
       .mk ";" ";" ⟨1, 11⟩ ⟨1, 12⟩ []]]

/-- The `formal_parameters` node `(a)` of a one-line function. -/
def exParamsNode : TSNode :=
  .mk "formal_parameters" "(a)" ⟨0, 10⟩ ⟨0, 13⟩
    [.mk "(" "(" ⟨0, 10⟩ ⟨0, 11⟩ [],
     .mk "required_parameter" "a" ⟨0, 11⟩ ⟨0, 12⟩
       [.mk "identifier" "a" ⟨0, 11⟩ ⟨0, 12⟩ []],
     .mk ")" ")" ⟨0, 12⟩ ⟨0, 13⟩ []]

/-- The body `\x7b a; \x7d` of the same one-line function: the use of `a` sits
on the parameter's own line. -/
def exParamUseBody : TSNode :=
  .mk "statement_block" "\x7b a; \x7d" ⟨0, 14⟩ ⟨0, 20⟩
    [.mk "expression_statement" "a;" ⟨0, 16⟩ ⟨0, 18⟩
       [.mk "identifier" "a" ⟨0, 16⟩ ⟨0, 17⟩ []]]

/-- The `param` definition of `a` recorded for the one-line function. -/
def exARefDef : VarRef :=
  { name := "a", type := "param", line := 1, column := 11,
    location := ⟨1, 11⟩, scope := "f", isInClosure := false,
    expression := none }

/-- The `use` of `a` recorded for the one-line function. -/
def exARefUse : VarRef :=
  { name := "a", type := "use", line := 1, column := 16,
    location := ⟨1, 16⟩, scope := "f", isInClosure := false,
    expression := none }

/-- The def-use edge the builder emits for the one-line function: the `param`
definition reaches a same-line `use`. -/
def exParamEdge : DefUseEdge :=
  { varName := "a", defRef := exARefDef, useRef := exARefUse,
    isMayReach := false, hasInterveningDef := false }

/-- A PDG with two nodes sharing line 20: node 1 (line 10) depends on
node 2 (line 20); node 3 (also line 20) depends on node 4 (line 30); node 3
is unreachable from line 10. -/
def exSharedLinePDG : PDGGraph :=
  { nodes :=
      [⟨1, 10, "a", "statement", [], [], none⟩,
       ⟨2, 20, "b", "statement", [], [], none⟩,
       ⟨3, 20, "c", "statement", [], [], none⟩,
       ⟨4, 30, "d", "statement", [], [], none⟩],
    edges :=
      [⟨2, 1, "control", none, "dep"⟩,
       ⟨4, 3, "control", none, "dep"⟩] }

/-- A chain PDG with pairwise-distinct lines: 30 ← 20 ← 10. -/
def exChainPDG : PDGGraph :=
  { nodes :=
      [⟨1, 10, "a", "statement", [], [], none⟩,
       ⟨2, 20, "b", "statement", [], [], none⟩,
       ⟨3, 30, "c", "statement", [], [], none⟩],
    edges :=
      [⟨1, 2, "control", none, "dep"⟩,
       ⟨2, 3, "control", none, "dep"⟩] }

/-- A parsable project file `a.ts` defining `helper`. -/
def exFileA : FileInput :=
  { filePath := "/p/a.ts", moduleName := "a", hasParser := true,
    parsed := .ok
      { moduleInfo := { functions := [⟨"helper", 1, true⟩], classes := [] }
        calls := [] } }

/-- A parsable project file `b.ts` whose `main` calls `helper` (resolvable)
and `missing` (unresolvable). -/
def exFileB : FileInput :=
  { filePath := "/p/b.ts", moduleName := "b", hasParser := true,
    parsed := .ok
      { moduleInfo := { functions := [⟨"main", 2, false⟩], classes := [] }
        calls := [("main", ["helper", "missing"])] } }

/-- A file whose per-file analysis step fails (rejected promise). -/
def exFileBad : FileInput :=
  { filePath := "/p/bad.ts", moduleName := "bad", hasParser := true,
    parsed := .error "boom" }

/-- The graph built from the two parsable example files (the `getD` default
is never used: the build succeeds). -/
def exGraphAB : ProjectCallGraph :=
  (buildCallGraph "/p" [exFileA, exFileB]).toOption.getD
    (createProjectCallGraph "/p")

/-- A resolved function location used by the `getCallers` examples. -/
def exLoc (qn : String) : FunctionLocation := ⟨"/p/x.ts", qn, qn, 1, true⟩

/-- The call site the `getCallers` examples attach to a caller. -/
def exSite (caller : String) : CallSite := ⟨"/p/x.ts", caller, 1, 0, false, none, 0⟩

/-- A resolved call edge between two qualified names. -/
def exEdge (callerQ calleeQ : String) : CallEdge :=
  { caller := exLoc callerQ, callee := calleeQ
    calleeLocation := some (exLoc calleeQ), callSite := exSite callerQ
    isDynamic := false, callType := "direct" }

/-- A call graph where `A` is called by `B` and `C`, and `B` by `D`. -/
def exImpactGraph : ProjectCallGraph :=
  [exEdge "B" "A", exEdge "C" "A", exEdge "D" "B"].foldl addCallEdge
    (createProjectCallGraph "/p")

/-! ## Association-list lemmas -/

theorem mapGet_mapSet_self {α : Type} (m : List (String × α)) (k : String)
    (v : α) : mapGet (mapSet m k v) k = some v := by
  induction m with
  | nil => simp [mapGet, mapSet]
  | cons p rest ih =>
      by_cases h : p.1 = k
      · simp [mapGet, mapSet, h]
      · simp [mapGet, mapSet, h, ih]

theorem mapGet_mapSet_ne {α : Type} (m : List (String × α)) (k k' : String)
    (v : α) (h : k' ≠ k) : mapGet (mapSet m k v) k' = mapGet m k' := by
  induction m with
  | nil =>
      simp only [mapSet, mapGet]
      rw [if_neg (fun hh => h hh.symm)]
  | cons p rest ih =>
      simp only [mapSet]
      by_cases hp : p.1 = k
      · rw [if_pos hp]
        simp only [mapGet]
        rw [if_neg (fun hh => h hh.symm), if_neg (fun hh => h (hp ▸ hh).symm)]
      · rw [if_neg hp]
        simp only [mapGet]
        by_cases hp' : p.1 = k'
        · rw [if_pos hp', if_pos hp']
        · rw [if_neg hp', if_neg hp', ih]

theorem mapGet_mapSet_isSome {α : Type} (m : List (String × α)) (k k' : String)
    (v : α) (h : (mapGet m k').isSome = true) :
    (mapGet (mapSet m k v) k').isSome = true := by
  by_cases hk : k' = k
  · subst hk
    simp [mapGet_mapSet_self]
  · rw [mapGet_mapSet_ne m k k' v hk]
    exact h

/-! ## Helper lemmas for `buildCallGraph` -/

theorem collectPhase_ok (files : List FileInput) (st : CollectState)
    (h : ∀ f ∈ files, f.hasParser = true → f.parsed.isOk = true) :
    ∃ st', collectPhase files st = .ok st' := by
  induction files generalizing st with
  | nil => exact ⟨st, rfl⟩
  | cons f rest ih =>
      by_cases hp : f.hasParser = false
      · simpa [collectPhase, hp] using
          ih st (fun f' hm => h f' (List.mem_cons_of_mem _ hm))
      · have hp' : f.hasParser = true := by
          cases hb : f.hasParser
          · exact absurd hb hp
          · rfl
        have hok := h f (List.mem_cons_self _ _) hp'
        cases hpar : f.parsed with
        | error e => rw [hpar] at hok; simp [Except.isOk, Except.toBool] at hok
        | ok parsed =>
            simp only [collectPhase, hp, if_false, hpar]
            exact ih _ (fun f' hm => h f' (List.mem_cons_of_mem _ hm))

/-! ## Claim theorems -/

/-- C1 (counterexample): `buildCallGraph` has no per-file `try`/`catch` and
`ProjectCallGraph` has no error field: the failure of a single file's
read/parse step rejects the whole build instead of being collected and
reported alongside a graph over the remaining files. -/
theorem buildCallGraph_aborts_on_per_file_error :
    buildCallGraph "/p" [exFileA, exFileBad, exFileB] = .error "boom" := rfl

/-- C1 (amended): `buildCallGraph` returns a `ProjectCallGraph` when every
file that has a parser parses successfully (files without a parser are
skipped); a single per-file failure propagates and aborts the whole build,
and no errors are collected. -/
theorem buildCallGraph_ok_of_all_parsable (rootPath : String)
    (files : List FileInput)
    (h : ∀ f ∈ files, f.hasParser = true → f.parsed.isOk = true) :
    ∃ g, buildCallGraph rootPath files = .ok g := by
  obtain ⟨st', hst⟩ := collectPhase_ok files
    { nameIndex := [], fileIndex := [], fileCalls := [],
      graph := { createProjectCallGraph rootPath with
                  files := files.map (fun f => f.filePath) } } h
  refine ⟨emitFileCalls st'.nameIndex st'.fileIndex st'.fileCalls st'.graph, ?_⟩
  simp [buildCallGraph, hst]

/-- C1 (witness): the amended statement applied to a concrete fully-parsable
two-file project. -/
theorem buildCallGraph_ok_of_all_parsable_witness :
    (∀ f ∈ [exFileA, exFileB], f.hasParser = true → f.parsed.isOk = true) ∧
      ∃ g, buildCallGraph "/p" [exFileA, exFileB] = .ok g :=
  ⟨by decide, buildCallGraph_ok_of_all_parsable "/p" [exFileA, exFileB] (by decide)⟩

/-- C2: in every `CFGInfo` the builder produces, `cyclomaticComplexity`
equals `max(1, E − N + 2)` over that same `CFGInfo`'s edge and block
counts. -/
theorem cfg_cyclomaticComplexity_formula (functionName filePath : String)
    (bodyNode : TSNode) :
    (cfgOfBody functionName filePath bodyNode).cyclomaticComplexity =
      max 1 (((cfgOfBody functionName filePath bodyNode).edges.length : Int) -
        ((cfgOfBody functionName filePath bodyNode).blocks.length : Int) + 2) := by
  simp only [cfgOfBody, getCFG, calculateCyclomaticComplexity, mul_one]

/-- C8 (counterexample): on the graph where `A` is called by `B` and `C` and
`B` by `D`, `getCallers` emits `D`'s call site (a depth-2 caller) before
`C`'s (a direct caller) — a depth-first order, not the specified
breadth-first order — and its records carry no depth annotation. -/
theorem getCallers_depth_first_not_breadth_first :
    getCallers exImpactGraph "A" 10 = [exSite "B", exSite "D", exSite "C"] ∧
      (getCallersBFSSpec exImpactGraph "A" 10).map Prod.fst =
        [exSite "B", exSite "C", exSite "D"] ∧
      getCallers exImpactGraph "A" 10 ≠
        (getCallersBFSSpec exImpactGraph "A" 10).map Prod.fst := by
  decide

/-! ## Registration and index invariants of `buildCallGraph` (C3, C4, C10) -/

/-- A location is registered: its qualified name is a key of
`graph.functions`. -/
def locRegistered (g : ProjectCallGraph) (loc : FunctionLocation) : Prop :=
  (mapGet g.functions loc.qualifiedName).isSome = true

/-- Every location reachable through a per-file function map is
registered. -/
def locsRegistered (g : ProjectCallGraph)
    (ff : List (String × FunctionLocation)) : Prop :=
  ∀ k loc, mapGet ff k = some loc → locRegistered g loc

/-- Every location in every `nameIndex` bucket is registered. -/
def bucketsRegistered (g : ProjectCallGraph)
    (ni : List (String × List FunctionLocation)) : Prop :=
  ∀ k bucket, mapGet ni k = some bucket → ∀ loc ∈ bucket, locRegistered g loc

/-- Every per-file map in `fileIndex` only holds registered locations. -/
def fileIndexRegistered (g : ProjectCallGraph)
    (fi : List (String × List (String × FunctionLocation))) : Prop :=
  ∀ fp ff, mapGet fi fp = some ff → locsRegistered g ff

/-- The invariant C3 states for one edge of the graph. -/
def edgeIndexed (g : ProjectCallGraph) (e : CallEdge) : Prop :=
  (mapGet g.functions e.caller.qualifiedName).isSome = true ∧
    e ∈ (mapGet g.forwardIndex e.caller.qualifiedName).getD [] ∧
    ∀ loc, e.calleeLocation = some loc →
      (mapGet g.functions loc.qualifiedName).isSome = true ∧
        e ∈ (mapGet g.backwardIndex loc.qualifiedName).getD []

/-- All edges of the graph satisfy the C3 invariant. -/
def edgesIndexed (g : ProjectCallGraph) : Prop :=
  ∀ e ∈ g.edges, edgeIndexed g e

theorem locRegistered_mono {g : ProjectCallGraph} {loc' : FunctionLocation}
    {qn : String} {loc : FunctionLocation}
    (h : locRegistered g loc) :
    locRegistered { g with functions := mapSet g.functions qn loc' } loc :=
  mapGet_mapSet_isSome _ _ _ _ h

theorem registerFunctionLocation_spec
    (ff : List (String × FunctionLocation))
    (ni : List (String × List FunctionLocation)) (g : ProjectCallGraph)
    (loc : FunctionLocation) (keys : List String)
    (hff : locsRegistered g ff) (hni : bucketsRegistered g ni) :
    let out := registerFunctionLocation ff ni g loc keys
    locsRegistered out.2.2 out.1 ∧ bucketsRegistered out.2.2 out.2.1 ∧
      (∀ x, locRegistered g x → locRegistered out.2.2 x) ∧
      out.2.2.edges = g.edges ∧
      out.2.2.forwardIndex = g.forwardIndex ∧
      out.2.2.backwardIndex = g.backwardIndex ∧
      out.2.2.functions = mapSet g.functions loc.qualifiedName loc := by
  intro out
  have hg' : out.2.2 = { g with functions := mapSet g.functions loc.qualifiedName loc } := by
    simp only [registerFunctionLocation, out]
  set g' := { g with functions := mapSet g.functions loc.qualifiedName loc } with hgdef
  have hmono : ∀ x, locRegistered g x → locRegistered g' x := fun x hx =>
    locRegistered_mono hx
  have hlocg' : locRegistered g' loc := by
    simp only [locRegistered, hgdef]
    simp [mapGet_mapSet_self]
  refine ⟨?_, ?_, ?_, ?_, ?_, ?_, ?_⟩
  · -- fileFunctions: fold adding first-wins entries of loc
    have main : ∀ (ks : List String) (ff0 : List (String × FunctionLocation)),
        locsRegistered g' ff0 →
        locsRegistered g'
          (ks.foldl
            (fun ff key => if (mapGet ff key).isSome then ff else mapSet ff key loc)
            ff0) := by
      intro ks
      induction ks with
      | nil => intro ff0 h0; exact h0
      | cons key rest ih =>
          intro ff0 h0
          simp only [List.foldl_cons]
          by_cases hk : (mapGet ff0 key).isSome
          · rw [if_pos hk]
            exact ih ff0 h0
          · rw [if_neg hk]
            apply ih
            intro k' loc' hget
            by_cases hkk : k' = key
            · subst hkk
              rw [mapGet_mapSet_self] at hget
              cases hget
              exact hlocg'
            · rw [mapGet_mapSet_ne _ _ _ _ hkk] at hget
              exact h0 k' loc' hget
    rw [hg'] at *
    have hff' : locsRegistered g' ff := fun k l hl => hmono _ (hff k l hl)
    simpa only [registerFunctionLocation, out] using main keys ff hff'
  · -- nameIndex: fold pushing loc onto buckets
    have main : ∀ (ks : List String) (ni0 : List (String × List FunctionLocation)),
        bucketsRegistered g' ni0 →
        bucketsRegistered g'
          (ks.foldl
            (fun ni key => mapSet ni key ((mapGet ni key).getD [] ++ [loc])) ni0) := by
      intro ks
      induction ks with
      | nil => intro ni0 h0; exact h0
      | cons key rest ih =>
          intro ni0 h0
          simp only [List.foldl_cons]
          apply ih
          intro k' bucket hget l hl
          by_cases hkk : k' = key
          · subst hkk
            rw [mapGet_mapSet_self] at hget
            cases hget
            rcases List.mem_append.mp hl with hold | hnew
            · cases hni0 : mapGet ni0 k' with
              | none => simp [hni0] at hold
              | some b0 =>
                  rw [hni0] at hold
                  exact h0 k' b0 hni0 l (by simpa using hold)
            · simp only [List.mem_singleton] at hnew
              subst hnew
              exact hlocg'
          · rw [mapGet_mapSet_ne _ _ _ _ hkk] at hget
            exact h0 k' bucket hget l hl
    have hni' : bucketsRegistered g' ni := fun k b hb l hl => hmono _ (hni k b hb l hl)
    simpa only [registerFunctionLocation, out] using main keys ni hni'
  · rw [hg']
    exact hmono
  · rw [hg']
  · rw [hg']
  · rw [hg']
  · rw [hg']

/-- The accumulator threaded through the registration folds of
`registerFile`. -/
abbrev RegAcc :=
  List (String × FunctionLocation) × List (String × List FunctionLocation) ×
    ProjectCallGraph

/-- Both registration maps of the accumulator only hold registered
locations. -/
def RegInv (acc : RegAcc) : Prop :=
  locsRegistered acc.2.2 acc.1 ∧ bucketsRegistered acc.2.2 acc.2.1

/-- How a registration step may change the graph: it keeps every registered
key registered and leaves edges and both indices untouched. -/
def GraphExt (g g' : ProjectCallGraph) : Prop :=
  (∀ x, locRegistered g x → locRegistered g' x) ∧
    g'.edges = g.edges ∧ g'.forwardIndex = g.forwardIndex ∧
    g'.backwardIndex = g.backwardIndex

theorem graphExt_refl (g : ProjectCallGraph) : GraphExt g g :=
  ⟨fun _ h => h, rfl, rfl, rfl⟩

theorem graphExt_trans {g1 g2 g3 : ProjectCallGraph} (h12 : GraphExt g1 g2)
    (h23 : GraphExt g2 g3) : GraphExt g1 g3 :=
  ⟨fun x hx => h23.1 x (h12.1 x hx), h23.2.1.trans h12.2.1,
    h23.2.2.1.trans h12.2.2.1, h23.2.2.2.trans h12.2.2.2⟩

theorem registerFunctionLocation_step (acc : RegAcc) (loc : FunctionLocation)
    (keys : List String) (h : RegInv acc) :
    RegInv (registerFunctionLocation acc.1 acc.2.1 acc.2.2 loc keys) ∧
      GraphExt acc.2.2 (registerFunctionLocation acc.1 acc.2.1 acc.2.2 loc keys).2.2 := by
  obtain ⟨hff, hni⟩ := h
  have spec := registerFunctionLocation_spec acc.1 acc.2.1 acc.2.2 loc keys hff hni
  exact ⟨⟨spec.1, spec.2.1⟩, spec.2.2.1, spec.2.2.2.1, spec.2.2.2.2.1,
    spec.2.2.2.2.2.1⟩

theorem registerFold_spec {α : Type} (f : RegAcc → α → RegAcc)
    (hf : ∀ acc it, RegInv acc → RegInv (f acc it) ∧ GraphExt acc.2.2 (f acc it).2.2)
    (items : List α) :
    ∀ acc : RegAcc, RegInv acc →
      RegInv (items.foldl f acc) ∧ GraphExt acc.2.2 (items.foldl f acc).2.2 := by
  induction items with
  | nil => intro acc h; exact ⟨h, graphExt_refl _⟩
  | cons it rest ih =>
      intro acc h
      simp only [List.foldl_cons]
      obtain ⟨h1, hext1⟩ := hf acc it h
      obtain ⟨h2, hext2⟩ := ih (f acc it) h1
      exact ⟨h2, graphExt_trans hext1 hext2⟩

set_option maxHeartbeats 1000000 in
theorem registerFile_spec
    (ni : List (String × List FunctionLocation))
    (fi : List (String × List (String × FunctionLocation)))
    (g : ProjectCallGraph) (filePath moduleName : String) (m : ModuleInfo)
    (hni : bucketsRegistered g ni) (hfi : fileIndexRegistered g fi) :
    let out := registerFile ni fi g filePath moduleName m
    bucketsRegistered out.2.2 out.1 ∧ fileIndexRegistered out.2.2 out.2.1 ∧
      GraphExt g out.2.2 := by
  intro out
  have hinv0 : RegInv (([] : List (String × FunctionLocation)), ni, g) :=
    ⟨fun k loc h => by simp [mapGet] at h, hni⟩
  have step1spec :=
    registerFold_spec
      (fun (acc : RegAcc) fn =>
        registerFunctionLocation acc.1 acc.2.1 acc.2.2
          (createFunctionLocation filePath fn.name
            (moduleName ++ "." ++ fn.name) fn.lineNumber fn.isExported)
          [fn.name])
      (fun acc fn h => registerFunctionLocation_step acc _ _ h)
      m.functions ([], ni, g) hinv0
  have step2spec :=
    registerFold_spec
      (fun (acc : RegAcc) (cls : ClsInfo) =>
        cls.methods.foldl
          (fun (acc : RegAcc) method =>
            registerFunctionLocation acc.1 acc.2.1 acc.2.2
              (createFunctionLocation filePath method.name
                (moduleName ++ "." ++ (cls.name ++ "." ++ method.name))
                method.lineNumber cls.isExported)
              [cls.name ++ "." ++ method.name, method.name])
          acc)
      (fun acc cls h =>
        registerFold_spec
          (fun (acc : RegAcc) method =>
            registerFunctionLocation acc.1 acc.2.1 acc.2.2
              (createFunctionLocation filePath method.name
                (moduleName ++ "." ++ (cls.name ++ "." ++ method.name))
                method.lineNumber cls.isExported)
              [cls.name ++ "." ++ method.name, method.name])
          (fun acc m h => registerFunctionLocation_step acc _ _ h)
          cls.methods acc h)
      m.classes _ step1spec.1
  obtain ⟨⟨hff2, hni2⟩, hext2⟩ := step2spec
  have hext : GraphExt g _ := graphExt_trans step1spec.2 hext2
  refine ⟨?_, ?_, ?_⟩
  · exact hni2
  · intro fp ff hget
    by_cases hfp : fp = filePath
    · subst hfp
      simp only [registerFile, out] at hget
      rw [mapGet_mapSet_self] at hget
      cases hget
      exact hff2
    · simp only [registerFile, out] at hget
      rw [mapGet_mapSet_ne _ _ _ _ hfp] at hget
      intro k loc hl
      exact hext.1 _ (hfi fp ff hget k loc hl)
  · exact hext

theorem collectPhase_spec (files : List FileInput) :
    ∀ st st', collectPhase files st = .ok st' →
      bucketsRegistered st.graph st.nameIndex →
      fileIndexRegistered st.graph st.fileIndex →
      bucketsRegistered st'.graph st'.nameIndex ∧
        fileIndexRegistered st'.graph st'.fileIndex ∧
        st'.graph.edges = st.graph.edges ∧
        st'.graph.forwardIndex = st.graph.forwardIndex ∧
        st'.graph.backwardIndex = st.graph.backwardIndex := by
  induction files with
  | nil =>
      intro st st' h hni hfi
      simp only [collectPhase] at h
      cases h
      exact ⟨hni, hfi, rfl, rfl, rfl⟩
  | cons f rest ih =>
      intro st st' h hni hfi
      by_cases hp : f.hasParser = false
      · simp only [collectPhase, hp, if_true] at h
        exact ih st st' h hni hfi
      · simp only [collectPhase, hp, if_false] at h
        cases hpar : f.parsed with
        | error e => rw [hpar] at h; cases h
        | ok parsed =>
            rw [hpar] at h
            have spec := registerFile_spec st.nameIndex st.fileIndex st.graph
              f.filePath f.moduleName parsed.moduleInfo hni hfi
            obtain ⟨hni2, hfi2, hext⟩ := spec
            have := ih _ st' h hni2 hfi2
            obtain ⟨hni3, hfi3, he3, hf3, hb3⟩ := this
            exact ⟨hni3, hfi3, he3.trans hext.2.1, hf3.trans hext.2.2.1,
              hb3.trans hext.2.2.2⟩

/-! ## `addCallEdge` lemmas -/

theorem addCallEdge_functions (g : ProjectCallGraph) (e : CallEdge) :
    (addCallEdge g e).functions = g.functions := by
  cases h : e.calleeLocation <;> simp [addCallEdge, h]

theorem addCallEdge_edges (g : ProjectCallGraph) (e : CallEdge) :
    (addCallEdge g e).edges = g.edges ++ [e] := by
  cases h : e.calleeLocation <;> simp [addCallEdge, h]

theorem addCallEdge_fwd_mem (g : ProjectCallGraph) (e : CallEdge) (k : String)
    (x : CallEdge) (h : x ∈ (mapGet g.forwardIndex k).getD []) :
    x ∈ (mapGet (addCallEdge g e).forwardIndex k).getD [] := by
  have hfwd : (addCallEdge g e).forwardIndex =
      mapSet g.forwardIndex e.caller.qualifiedName
        ((mapGet g.forwardIndex e.caller.qualifiedName).getD [] ++ [e]) := by
    cases hc : e.calleeLocation <;> simp [addCallEdge, hc]
  rw [hfwd]
  by_cases hk : k = e.caller.qualifiedName
  · subst hk
    rw [mapGet_mapSet_self]
    exact List.mem_append_left _ h
  · rw [mapGet_mapSet_ne _ _ _ _ hk]
    exact h

theorem addCallEdge_bwd_mem (g : ProjectCallGraph) (e : CallEdge) (k : String)
    (x : CallEdge) (h : x ∈ (mapGet g.backwardIndex k).getD []) :
    x ∈ (mapGet (addCallEdge g e).backwardIndex k).getD [] := by
  cases hc : e.calleeLocation with
  | none => simpa [addCallEdge, hc] using h
  | some loc =>
      simp only [addCallEdge, hc]
      by_cases hk : k = loc.qualifiedName
      · subst hk
        rw [mapGet_mapSet_self]
        exact List.mem_append_left _ h
      · rw [mapGet_mapSet_ne _ _ _ _ hk]
        exact h

theorem addCallEdge_self_fwd (g : ProjectCallGraph) (e : CallEdge) :
    e ∈ (mapGet (addCallEdge g e).forwardIndex e.caller.qualifiedName).getD [] := by
  have hfwd : (addCallEdge g e).forwardIndex =
      mapSet g.forwardIndex e.caller.qualifiedName
        ((mapGet g.forwardIndex e.caller.qualifiedName).getD [] ++ [e]) := by
    cases hc : e.calleeLocation <;> simp [addCallEdge, hc]
  rw [hfwd, mapGet_mapSet_self]
  simp

theorem addCallEdge_self_bwd (g : ProjectCallGraph) (e : CallEdge)
    (loc : FunctionLocation) (hc : e.calleeLocation = some loc) :
    e ∈ (mapGet (addCallEdge g e).backwardIndex loc.qualifiedName).getD [] := by
  simp only [addCallEdge, hc]
  rw [mapGet_mapSet_self]
  simp

theorem addCallEdge_preserves_edgeIndexed {g : ProjectCallGraph}
    {x : CallEdge} (e : CallEdge) (h : edgeIndexed g x) :
    edgeIndexed (addCallEdge g e) x := by
  obtain ⟨h1, h2, h3⟩ := h
  refine ⟨?_, ?_, ?_⟩
  · rw [addCallEdge_functions]; exact h1
  · exact addCallEdge_fwd_mem g e _ x h2
  · intro loc hloc
    obtain ⟨h31, h32⟩ := h3 loc hloc
    exact ⟨by rw [addCallEdge_functions]; exact h31,
      addCallEdge_bwd_mem g e _ x h32⟩

theorem addCallEdge_new_edgeIndexed {g : ProjectCallGraph} {e : CallEdge}
    (hcaller : (mapGet g.functions e.caller.qualifiedName).isSome = true)
    (hcallee : ∀ loc, e.calleeLocation = some loc →
      (mapGet g.functions loc.qualifiedName).isSome = true) :
    edgeIndexed (addCallEdge g e) e := by
  refine ⟨?_, addCallEdge_self_fwd g e, ?_⟩
  · rw [addCallEdge_functions]; exact hcaller
  · intro loc hloc
    exact ⟨by rw [addCallEdge_functions]; exact hcallee loc hloc,
      addCallEdge_self_bwd g e loc hloc⟩

/-! ## `resolveCallee` and `makeCallEdge` lemmas -/

theorem resolveCallee_cases (name : String)
    (ff : List (String × FunctionLocation))
    (ni : List (String × List FunctionLocation)) :
    (∃ loc, resolveCallee name ff ni = (some loc, false)) ∨
      resolveCallee name ff ni = (none, true) := by
  unfold resolveCallee
  cases h : mapGet ff name with
  | some l => exact Or.inl ⟨l, rfl⟩
  | none =>
      by_cases hlen : ((mapGet ni name).getD []).length = 1
      · cases hms : (mapGet ni name).getD [] with
        | nil => rw [hms] at hlen; simp at hlen
        | cons a rest =>
            rw [hms] at hlen
            simp only [hlen, if_true]
            exact Or.inl ⟨a, by simp [hms]⟩
      · simp only [hlen, if_false]
        exact Or.inr trivial

theorem resolveCallee_registered {g : ProjectCallGraph}
    {ff : List (String × FunctionLocation)}
    {ni : List (String × List FunctionLocation)}
    (hff : locsRegistered g ff) (hni : bucketsRegistered g ni)
    (name : String) (loc : FunctionLocation)
    (h : (resolveCallee name ff ni).1 = some loc) : locRegistered g loc := by
  unfold resolveCallee at h
  cases hloc : mapGet ff name with
  | some l =>
      rw [hloc] at h
      simp at h
      subst h
      exact hff name l hloc
  | none =>
      rw [hloc] at h
      by_cases hlen : ((mapGet ni name).getD []).length = 1
      · simp only [hlen, if_true] at h
        cases hni' : mapGet ni name with
        | none => rw [hni'] at h; simp at h
        | some bucket =>
            rw [hni'] at h
            simp only [Option.getD_some] at h
            exact hni name bucket hni' loc (mem_of_head?_eq_some h)
      · simp only [hlen, if_false] at h
        cases h

theorem makeCallEdge_caller (fp : String) (cl : FunctionLocation)
    (cn : String) (ff : List (String × FunctionLocation))
    (ni : List (String × List FunctionLocation)) :
    (makeCallEdge fp cl cn ff ni).caller = cl := rfl

theorem makeCallEdge_calleeLocation (fp : String) (cl : FunctionLocation)
    (cn : String) (ff : List (String × FunctionLocation))
    (ni : List (String × List FunctionLocation)) :
    (makeCallEdge fp cl cn ff ni).calleeLocation = (resolveCallee cn ff ni).1 := rfl

/-! ## Edge-phase specifications -/

theorem emitCalleeList_spec (fp : String) (cl : FunctionLocation)
    (ff : List (String × FunctionLocation))
    (ni : List (String × List FunctionLocation)) (callees : List String) :
    ∀ g, edgesIndexed g → locsRegistered g ff → bucketsRegistered g ni →
      locRegistered g cl →
      edgesIndexed (emitCalleeList fp cl ff ni callees g) ∧
        (emitCalleeList fp cl ff ni callees g).functions = g.functions ∧
        ∀ e ∈ (emitCalleeList fp cl ff ni callees g).edges,
          e ∈ g.edges ∨ ∃ cn, e = makeCallEdge fp cl cn ff ni := by
  induction callees with
  | nil =>
      intro g hidx hff hni hcl
      exact ⟨hidx, rfl, fun e he => Or.inl he⟩
  | cons cn rest ih =>
      intro g hidx hff hni hcl
      simp only [emitCalleeList]
      set e0 := makeCallEdge fp cl cn ff ni with he0
      have hnew : edgeIndexed (addCallEdge g e0) e0 := by
        apply addCallEdge_new_edgeIndexed
        · rw [makeCallEdge_caller]; exact hcl
        · intro loc hloc
          rw [makeCallEdge_calleeLocation] at hloc
          exact resolveCallee_registered hff hni cn loc hloc
      have hidx' : edgesIndexed (addCallEdge g e0) := by
        intro e he
        rw [addCallEdge_edges] at he
        rcases List.mem_append.mp he with hold | hself
        · exact addCallEdge_preserves_edgeIndexed e0 (hidx e hold)
        · simp only [List.mem_singleton] at hself
          subst hself
          exact hnew
      have hfun : (addCallEdge g e0).functions = g.functions :=
        addCallEdge_functions g e0
      have hff' : locsRegistered (addCallEdge g e0) ff := by
        intro k loc hl
        simpa [locRegistered, hfun] using hff k loc hl
      have hni' : bucketsRegistered (addCallEdge g e0) ni := by
        intro k b hb loc hl
        simpa [locRegistered, hfun] using hni k b hb loc hl
      have hcl' : locRegistered (addCallEdge g e0) cl := by
        simpa [locRegistered, hfun] using hcl
      obtain ⟨a1, a2, a3⟩ := ih (addCallEdge g e0) hidx' hff' hni' hcl'
      refine ⟨a1, a2.trans hfun, ?_⟩
      intro e he
      rcases a3 e he with hin | ⟨cn', hcn'⟩
      · rw [addCallEdge_edges] at hin
        rcases List.mem_append.mp hin with hold | hself
        · exact Or.inl hold
        · simp only [List.mem_singleton] at hself
          exact Or.inr ⟨cn, hself⟩
      · exact Or.inr ⟨cn', hcn'⟩

theorem emitCallerList_spec (fp : String)
    (ff : List (String × FunctionLocation))
    (ni : List (String × List FunctionLocation))
    (calls : List (String × List String)) :
    ∀ g, edgesIndexed g → locsRegistered g ff → bucketsRegistered g ni →
      edgesIndexed (emitCallerList fp ff ni calls g) ∧
        (emitCallerList fp ff ni calls g).functions = g.functions ∧
        ∀ e ∈ (emitCallerList fp ff ni calls g).edges,
          e ∈ g.edges ∨ ∃ cl cn, e = makeCallEdge fp cl cn ff ni := by
  induction calls with
  | nil =>
      intro g hidx hff hni
      exact ⟨hidx, rfl, fun e he => Or.inl he⟩
  | cons pair rest ih =>
      intro g hidx hff hni
      obtain ⟨callerName, callees⟩ := pair
      simp only [emitCallerList]
      cases hcl : mapGet ff callerName with
      | none => exact ih g hidx hff hni
      | some callerLocation =>
          have hclreg : locRegistered g callerLocation :=
            hff callerName callerLocation hcl
          obtain ⟨b1, b2, b3⟩ :=
            emitCalleeList_spec fp callerLocation ff ni callees g hidx hff hni
              hclreg
          have hff' : locsRegistered (emitCalleeList fp callerLocation ff ni callees g) ff := by
            intro k loc hl
            simpa [locRegistered, b2] using hff k loc hl
          have hni' : bucketsRegistered (emitCalleeList fp callerLocation ff ni callees g) ni := by
            intro k b hb loc hl
            simpa [locRegistered, b2] using hni k b hb loc hl
          obtain ⟨a1, a2, a3⟩ := ih _ b1 hff' hni'
          refine ⟨a1, a2.trans b2, ?_⟩
          intro e he
          rcases a3 e he with hin | ⟨cl', cn', h'⟩
          · rcases b3 e hin with hold | ⟨cn', h'⟩
            · exact Or.inl hold
            · exact Or.inr ⟨callerLocation, cn', h'⟩
          · exact Or.inr ⟨cl', cn', h'⟩

theorem emitFileCalls_spec
    (ni : List (String × List FunctionLocation))
    (fi : List (String × List (String × FunctionLocation)))
    (fileCalls : List (String × List (String × List String))) :
    ∀ g, edgesIndexed g → bucketsRegistered g ni → fileIndexRegistered g fi →
      edgesIndexed (emitFileCalls ni fi fileCalls g) ∧
        ∀ e ∈ (emitFileCalls ni fi fileCalls g).edges,
          e ∈ g.edges ∨
            ∃ fp ff cl cn, mapGet fi fp = some ff ∧
              e = makeCallEdge fp cl cn ff ni := by
  induction fileCalls with
  | nil =>
      intro g hidx hni hfi
      exact ⟨hidx, fun e he => Or.inl he⟩
  | cons pair rest ih =>
      intro g hidx hni hfi
      obtain ⟨fp, calls⟩ := pair
      simp only [emitFileCalls]
      cases hfp : mapGet fi fp with
      | none => exact ih g hidx hni hfi
      | some ff =>
          have hff : locsRegistered g ff := hfi fp ff hfp
          obtain ⟨b1, b2, b3⟩ := emitCallerList_spec fp ff ni calls g hidx hff hni
          have hni' : bucketsRegistered (emitCallerList fp ff ni calls g) ni := by
            intro k b hb loc hl
            simpa [locRegistered, b2] using hni k b hb loc hl
          have hfi' : fileIndexRegistered (emitCallerList fp ff ni calls g) fi := by
            intro fp' ff' hf' k loc hl
            simpa [locRegistered, b2] using hfi fp' ff' hf' k loc hl
          obtain ⟨a1, a3⟩ := ih _ b1 hni' hfi'
          refine ⟨a1, ?_⟩
          intro e he
          rcases a3 e he with hin | ⟨fp', ff', cl', cn', hf', h'⟩
          · rcases b3 e hin with hold | ⟨cl', cn', h'⟩
            · exact Or.inl hold
            · exact Or.inr ⟨fp, ff, cl', cn', hfp, h'⟩
          · exact Or.inr ⟨fp', ff', cl', cn', hf', h'⟩

/-- Inversion of a successful `buildCallGraph`: the registration phase
succeeded and the result is exactly the edge phase over its output. -/
theorem buildCallGraph_ok_inv {rootPath : String} {files : List FileInput}
    {g : ProjectCallGraph} (h : buildCallGraph rootPath files = .ok g) :
    ∃ st', collectPhase files
        { nameIndex := [], fileIndex := [], fileCalls := [],
          graph := { createProjectCallGraph rootPath with
                      files := files.map (fun f => f.filePath) } } = .ok st' ∧
      g = emitFileCalls st'.nameIndex st'.fileIndex st'.fileCalls st'.graph := by
  have h' : (collectPhase files
      { nameIndex := [], fileIndex := [], fileCalls := [],
        graph := { createProjectCallGraph rootPath with
                    files := files.map (fun f => f.filePath) } } >>=
      fun st =>
        pure (emitFileCalls st.nameIndex st.fileIndex st.fileCalls st.graph) :
      Except String ProjectCallGraph) = .ok g := h
  cases hc : collectPhase files
      { nameIndex := [], fileIndex := [], fileCalls := [],
        graph := { createProjectCallGraph rootPath with
                    files := files.map (fun f => f.filePath) } } with
  | error e =>
      rw [hc] at h'
      simp [Bind.bind, Except.bind] at h'
  | ok st' =>
      rw [hc] at h'
      simp only [Bind.bind, Except.bind, pure, Except.pure, Except.ok.injEq] at h'
      exact ⟨st', rfl, h'.symm⟩

/-- The bundle of facts available about a successful build's output. -/
theorem buildCallGraph_edges_spec {rootPath : String} {files : List FileInput}
    {g : ProjectCallGraph} (h : buildCallGraph rootPath files = .ok g) :
    edgesIndexed g ∧
      ∀ e ∈ g.edges, ∃ fp ff ni cl cn, e = makeCallEdge fp cl cn ff ni := by
  obtain ⟨st', hc, hg⟩ := buildCallGraph_ok_inv h
  have hni0 : bucketsRegistered
      { createProjectCallGraph rootPath with
        files := files.map (fun f => f.filePath) } [] := by
    intro k b hb
    simp [mapGet] at hb
  have hfi0 : fileIndexRegistered
      { createProjectCallGraph rootPath with
        files := files.map (fun f => f.filePath) } [] := by
    intro fp ff hf
    simp [mapGet] at hf
  obtain ⟨hni, hfi, hedges, _, _⟩ := collectPhase_spec files _ st' hc hni0 hfi0
  have hidx0 : edgesIndexed st'.graph := by
    intro e he
    rw [hedges] at he
    simp [createProjectCallGraph] at he
  obtain ⟨hidx, horig⟩ :=
    emitFileCalls_spec st'.nameIndex st'.fileIndex st'.fileCalls st'.graph
      hidx0 hni hfi
  subst hg
  refine ⟨hidx, ?_⟩
  intro e he
  rcases horig e he with hin | ⟨fp, ff, cl, cn, _, hmk⟩
  · rw [hedges] at hin
    simp [createProjectCallGraph] at hin
  · exact ⟨fp, ff, st'.nameIndex, cl, cn, hmk⟩

theorem makeCallEdge_isDynamic (fp : String) (cl : FunctionLocation)
    (cn : String) (ff : List (String × FunctionLocation))
    (ni : List (String × List FunctionLocation)) :
    (makeCallEdge fp cl cn ff ni).isDynamic = (resolveCallee cn ff ni).2 := rfl

theorem makeCallEdge_callType (fp : String) (cl : FunctionLocation)
    (cn : String) (ff : List (String × FunctionLocation))
    (ni : List (String × List FunctionLocation)) :
    (makeCallEdge fp cl cn ff ni).callType =
      (if (resolveCallee cn ff ni).2 then "dynamic"
       else if cn.contains '.' then "method" else "direct") := rfl

theorem head?_eq_some_headI {α : Type} [Inhabited α] {l : List α}
    (h : l ≠ []) : l.head? = some l.headI := by
  cases l with
  | nil => exact absurd rfl h
  | cons a t => rfl

theorem getLast?_eq_some_getLastI {α : Type} [Inhabited α] {l : List α}
    (h : l ≠ []) : l.getLast? = some l.getLastI := by
  rw [List.getLastI_eq_getLast?]
  cases hl : l.getLast? with
  | none =>
      rw [List.getLast?_eq_none] at hl
      exact absurd hl h
  | some a => rfl

theorem exGraphAB_edges_ne_nil : exGraphAB.edges ≠ [] := by
  have hlen : exGraphAB.edges.length = 2 := by decide
  intro hcon
  rw [hcon] at hlen
  simp at hlen

/-- C3: in a graph returned by `buildCallGraph`, every edge's caller is a key
of `functions` and the edge sits in `forwardIndex` under the caller's
qualified name; a resolved callee is a key of `functions` and the edge also
sits in `backwardIndex` under the callee's qualified name. -/
theorem buildCallGraph_edge_index_invariant (rootPath : String)
    (files : List FileInput) (g : ProjectCallGraph)
    (h : buildCallGraph rootPath files = .ok g) :
    ∀ e ∈ g.edges,
      (mapGet g.functions e.caller.qualifiedName).isSome = true ∧
        e ∈ (mapGet g.forwardIndex e.caller.qualifiedName).getD [] ∧
        ∀ loc, e.calleeLocation = some loc →
          (mapGet g.functions loc.qualifiedName).isSome = true ∧
            e ∈ (mapGet g.backwardIndex loc.qualifiedName).getD [] :=
  fun e he => (buildCallGraph_edges_spec h).1 e he

/-- C3 (witness): the invariant instantiated on the concrete two-file
project, at its resolved `b.main → a.helper` edge. -/
theorem buildCallGraph_edge_index_invariant_witness :
    buildCallGraph "/p" [exFileA, exFileB] = .ok exGraphAB ∧
      ∃ e ∈ exGraphAB.edges,
        (mapGet exGraphAB.functions e.caller.qualifiedName).isSome = true ∧
          e ∈ (mapGet exGraphAB.forwardIndex e.caller.qualifiedName).getD [] ∧
          ∀ loc, e.calleeLocation = some loc →
            (mapGet exGraphAB.functions loc.qualifiedName).isSome = true ∧
              e ∈ (mapGet exGraphAB.backwardIndex loc.qualifiedName).getD [] := by
  refine ⟨rfl, ?_⟩
  have hmem : exGraphAB.edges.head? = some (exGraphAB.edges.headI) :=
    head?_eq_some_headI exGraphAB_edges_ne_nil
  refine ⟨exGraphAB.edges.headI, mem_of_head?_eq_some hmem, ?_⟩
  exact buildCallGraph_edge_index_invariant "/p" [exFileA, exFileB] exGraphAB
    rfl _ (mem_of_head?_eq_some hmem)

/-- C4: callee resolution prefers the defining file's own map; failing that a
unique project-wide `nameIndex` match; otherwise the edge is dynamic:
`calleeLocation = null`, `isDynamic = true`, `callType = 'dynamic'`. -/
theorem resolveCallee_resolution_policy :
    (∀ (ff : List (String × FunctionLocation))
        (ni : List (String × List FunctionLocation)) (name : String)
        (loc : FunctionLocation), mapGet ff name = some loc →
        resolveCallee name ff ni = (some loc, false)) ∧
      (∀ (ff : List (String × FunctionLocation))
          (ni : List (String × List FunctionLocation)) (name : String)
          (loc : FunctionLocation), mapGet ff name = none →
          (mapGet ni name).getD [] = [loc] →
          resolveCallee name ff ni = (some loc, false)) ∧
      (∀ (ff : List (String × FunctionLocation))
          (ni : List (String × List FunctionLocation)) (name : String),
          mapGet ff name = none → ((mapGet ni name).getD []).length ≠ 1 →
          resolveCallee name ff ni = (none, true)) ∧
      ∀ (rootPath : String) (files : List FileInput) (g : ProjectCallGraph),
        buildCallGraph rootPath files = .ok g →
        ∀ e ∈ g.edges, (e.isDynamic = true ↔ e.calleeLocation = none) ∧
          (e.isDynamic = true → e.callType = "dynamic") := by
  refine ⟨?_, ?_, ?_, ?_⟩
  · intro ff ni name loc h
    unfold resolveCallee
    rw [h]
  · intro ff ni name loc hnone hone
    unfold resolveCallee
    rw [hnone, hone]
    simp
  · intro ff ni name hnone hlen
    unfold resolveCallee
    rw [hnone]
    simp only [hlen, if_false]
  · intro rootPath files g h e he
    obtain ⟨fp, ff, ni, cl, cn, hmk⟩ := (buildCallGraph_edges_spec h).2 e he
    subst hmk
    rcases resolveCallee_cases cn ff ni with ⟨loc, hres⟩ | hres
    · rw [makeCallEdge_isDynamic, makeCallEdge_calleeLocation, hres,
        makeCallEdge_callType, hres]
      simp
    · rw [makeCallEdge_isDynamic, makeCallEdge_calleeLocation, hres,
        makeCallEdge_callType, hres]
      simp

/-- C4 (witness): the three resolution cases at concrete maps, and the
dynamic-edge consequence at the unresolved `missing` edge of the concrete
project build. -/
theorem resolveCallee_resolution_policy_witness :
    resolveCallee "helper" [("helper", exLoc "a.helper")] [] =
        (some (exLoc "a.helper"), false) ∧
      resolveCallee "helper" [] [("helper", [exLoc "a.helper"])] =
        (some (exLoc "a.helper"), false) ∧
      resolveCallee "missing" [] [] = (none, true) ∧
      ((exGraphAB.edges.getLastI.isDynamic = true ↔
          exGraphAB.edges.getLastI.calleeLocation = none) ∧
        (exGraphAB.edges.getLastI.isDynamic = true →
          exGraphAB.edges.getLastI.callType = "dynamic")) := by
  have hmem : exGraphAB.edges.getLast? = some exGraphAB.edges.getLastI :=
    getLast?_eq_some_getLastI exGraphAB_edges_ne_nil
  refine ⟨?_, ?_, ?_, ?_⟩
  · exact resolveCallee_resolution_policy.1 _ _ _ _ (by decide)
  · exact resolveCallee_resolution_policy.2.1 _ _ _ _ (by decide) (by decide)
  · exact resolveCallee_resolution_policy.2.2.1 _ _ _ (by decide) (by decide)
  · exact resolveCallee_resolution_policy.2.2.2 "/p" [exFileA, exFileB]
      exGraphAB rfl _ (mem_of_getLast?_eq_some hmem)

/-- C10: every `CallEdge` the builder produces carries a fabricated call
site: the caller's declaration line, column 0, argument count 0 and no
receiver. -/
theorem buildCallGraph_fabricated_callsites (rootPath : String)
    (files : List FileInput) (g : ProjectCallGraph)
    (h : buildCallGraph rootPath files = .ok g) :
    ∀ e ∈ g.edges, e.callSite.line = e.caller.line ∧
      e.callSite.column = 0 ∧ e.callSite.argumentCount = 0 ∧
      e.callSite.receiver = none := by
  intro e he
  obtain ⟨fp, ff, ni, cl, cn, hmk⟩ := (buildCallGraph_edges_spec h).2 e he
  subst hmk
  exact ⟨rfl, rfl, rfl, rfl⟩

/-- C10 (witness): the fabricated call site of the first edge of the
concrete project build. -/
theorem buildCallGraph_fabricated_callsites_witness :
    ∃ e ∈ exGraphAB.edges, e.callSite.line = e.caller.line ∧
      e.callSite.column = 0 ∧ e.callSite.argumentCount = 0 ∧
      e.callSite.receiver = none := by
  have hmem : exGraphAB.edges.head? = some (exGraphAB.edges.headI) :=
    head?_eq_some_headI exGraphAB_edges_ne_nil
  exact ⟨exGraphAB.edges.headI, mem_of_head?_eq_some hmem,
    buildCallGraph_fabricated_callsites "/p" [exFileA, exFileB] exGraphAB rfl _
      (mem_of_head?_eq_some hmem)⟩

/-! ## C7 and C9: def-use edge direction and built-in filtering -/

theorem buildDefUseEdges_le (st : DFGState) :
    ∀ e ∈ buildDefUseEdges st, e.defRef.line ≤ e.useRef.line := by
  intro e he
  unfold buildDefUseEdges at he
  rw [List.mem_flatMap] at he
  obtain ⟨use, _, he⟩ := he
  unfold edgesForUse at he
  rw [List.mem_map] at he
  obtain ⟨d, hd, rfl⟩ := he
  have hf := List.mem_filter.mp hd
  simpa using hf.2

/-- C7 (amended): every def-use edge the DFG builder produces satisfies
`def.line ≤ use.line`; equality is possible not only for `update` references
but whenever any definition of the variable lies on the use's own line
(parameter definitions and assignments included). -/
theorem dfg_def_line_le_use_line (functionName filePath : String)
    (paramsNode : Option TSNode) (bodyNode : TSNode) :
    ∀ e ∈ (dfgOfBody functionName filePath paramsNode bodyNode).edges,
      e.defRef.line ≤ e.useRef.line := by
  cases paramsNode with
  | none => intro e he; exact buildDefUseEdges_le _ e he
  | some p => intro e he; exact buildDefUseEdges_le _ e he

/-- C7 (counterexample): for the one-line function `function f(a) { a; }`
the builder emits an edge whose `def` and `use` share a line although the
definition is a `param` reference — not the same occurrence recorded as an
`update` — so equality is not restricted to `update` references. -/
theorem dfg_same_line_def_use_not_update :
    ∃ e ∈ (dfgOfBody "f" "t.ts" (some exParamsNode) exParamUseBody).edges,
      e.defRef.line = e.useRef.line ∧
        ¬(e.defRef = e.useRef ∧ e.defRef.type = "update") := by
  simp [dfgOfBody, processNode, getDFG, initDFGBuilder, extractParameters,
    dfgTraverse, dfgTraverseList, processIdentifier, createRef, addDefinition,
    buildDefUseEdges, edgesForUse, pushUnique, mapGet, mapSet, exParamsNode,
    exParamUseBody, TSNode.type, TSNode.children, TSNode.text,
    TSNode.startPosition]

/-- C7 (witness): the `≤` theorem instantiated at the one-line function's
concrete edge. -/
theorem dfg_def_line_le_use_line_witness :
    exParamEdge ∈ (dfgOfBody "f" "t.ts" (some exParamsNode) exParamUseBody).edges ∧
      exParamEdge.defRef.line ≤ exParamEdge.useRef.line := by
  have hm : exParamEdge ∈
      (dfgOfBody "f" "t.ts" (some exParamsNode) exParamUseBody).edges := by
    simp [dfgOfBody, processNode, getDFG, initDFGBuilder, extractParameters,
      dfgTraverse, dfgTraverseList, processIdentifier, createRef,
      addDefinition, buildDefUseEdges, edgesForUse, pushUnique, mapGet, mapSet,
      exParamsNode, exParamUseBody, exParamEdge, exARefDef, exARefUse,
      TSNode.type, TSNode.children, TSNode.text, TSNode.startPosition]
  exact ⟨hm, dfg_def_line_le_use_line "f" "t.ts" (some exParamsNode)
    exParamUseBody exParamEdge hm⟩

/-- C9 (code bug): for the body `{ return Math; }` the DFG contains a
`VarRef` of type `use` named `Math`: `processReturn` records identifier
returns through `createRef`, which does not apply `processIdentifier`'s
built-in filter. -/
theorem dfg_records_builtin_use_in_return :
    ∃ r ∈ (dfgOfBody "f" "t.ts" none exReturnMathBody).refs,
      r.name = "Math" ∧ r.type = "use" := by
  simp [dfgOfBody, processNode, getDFG, initDFGBuilder, dfgTraverse,
    dfgTraverseList, processReturn, processReturnList, processIdentifier,
    createRef, addDefinition, buildDefUseEdges, edgesForUse, pushUnique,
    mapGet, mapSet, exReturnMathBody, TSNode.type, TSNode.children,
    TSNode.text, TSNode.startPosition]

/-! ## C8: the `getCallers` traversal -/

/-- Keys of an association list are pairwise distinct (true of every map the
source builds through `Map.set`). -/
def nodupKeys {α : Type} (m : List (String × α)) : Prop :=
  (m.map Prod.fst).Nodup

/-- Total size of the buckets whose key has not been visited yet: the
potential consumed by `getCallers`' traversal. -/
def sumUnvisited (bw : List (String × List CallEdge)) (visited : List String) :
    Nat :=
  ((bw.filter (fun p => p.1 ∉ visited)).map (fun p => p.2.length)).sum

theorem sumUnvisited_cons (p : String × List CallEdge)
    (rest : List (String × List CallEdge)) (visited : List String) :
    sumUnvisited (p :: rest) visited =
      (if p.1 ∈ visited then 0 else p.2.length) + sumUnvisited rest visited := by
  by_cases hv : p.1 ∈ visited <;> simp [sumUnvisited, List.filter_cons, hv]

theorem sumUnvisited_congr (bw : List (String × List CallEdge))
    (visited : List String) (name : String) (h : ∀ q ∈ bw, q.1 ≠ name) :
    sumUnvisited bw (visited ++ [name]) = sumUnvisited bw visited := by
  induction bw with
  | nil => rfl
  | cons p rest ih =>
      have hp := h p (List.mem_cons_self _ _)
      have hrest := ih (fun q hq => h q (List.mem_cons_of_mem _ hq))
      rw [sumUnvisited_cons, sumUnvisited_cons, hrest]
      have hmem : (p.1 ∈ visited ++ [name]) ↔ p.1 ∈ visited := by
        simp [List.mem_append, hp]
      by_cases hv : p.1 ∈ visited
      · rw [if_pos (hmem.mpr hv), if_pos hv]
      · rw [if_neg (fun hc => hv (hmem.mp hc)), if_neg hv]

theorem sumUnvisited_visit (bw : List (String × List CallEdge))
    (visited : List String) (name : String) (hnd : nodupKeys bw)
    (hv : name ∉ visited) :
    sumUnvisited bw (visited ++ [name]) + ((mapGet bw name).getD []).length =
      sumUnvisited bw visited := by
  induction bw with
  | nil => simp [sumUnvisited, mapGet]
  | cons p rest ih =>
      have hnd' : nodupKeys rest := by
        simpa [nodupKeys] using (List.nodup_cons.mp hnd).2
      have hkey : p.1 ∉ rest.map Prod.fst := by
        simpa [nodupKeys] using (List.nodup_cons.mp hnd).1
      rw [sumUnvisited_cons, sumUnvisited_cons]
      by_cases hpk : p.1 = name
      · subst hpk
        have hcongr : sumUnvisited rest (visited ++ [p.1]) =
            sumUnvisited rest visited := by
          apply sumUnvisited_congr
          intro q hq hqe
          exact hkey (List.mem_map.mpr ⟨q, hq, hqe⟩)
        have hget : mapGet (p :: rest) p.1 = some p.2 := by simp [mapGet]
        rw [hget]
        rw [if_pos (by simp : p.1 ∈ visited ++ [p.1]), if_neg hv]
        simp only [Option.getD_some]
        omega
      · have hget : mapGet (p :: rest) name = mapGet rest name := by
          simp [mapGet, hpk]
        rw [hget]
        have hmem : (p.1 ∈ visited ++ [name]) ↔ p.1 ∈ visited := by
          simp [List.mem_append, hpk]
        have hih := ih hnd'
        by_cases hpv : p.1 ∈ visited
        · rw [if_pos (hmem.mpr hpv), if_pos hpv]
          omega
        · rw [if_neg (fun hc => hpv (hmem.mp hc)), if_neg hpv]
          omega

theorem traverseCallers_potential (g : ProjectCallGraph)
    (hnd : nodupKeys g.backwardIndex) :
    ∀ (gas : Nat) (name : String) (visited : List String)
      (result : List CallSite),
      (traverseCallers g gas name (visited, result)).2.length +
          sumUnvisited g.backwardIndex
            (traverseCallers g gas name (visited, result)).1 ≤
        result.length + sumUnvisited g.backwardIndex visited := by
  intro gas
  induction gas with
  | zero =>
      intro name visited result
      simp [traverseCallers]
  | succ gas ih =>
      have hfold : ∀ (es : List CallEdge) (v : List String) (r : List CallSite),
          (es.foldl
              (fun st e =>
                traverseCallers g gas e.caller.qualifiedName
                  (st.1, st.2 ++ [e.callSite])) (v, r)).2.length +
            sumUnvisited g.backwardIndex
              (es.foldl
                (fun st e =>
                  traverseCallers g gas e.caller.qualifiedName
                    (st.1, st.2 ++ [e.callSite])) (v, r)).1 ≤
          r.length + es.length + sumUnvisited g.backwardIndex v := by
        intro es
        induction es with
        | nil => intro v r; simp
        | cons e rest ihe =>
            intro v r
            simp only [List.foldl_cons]
            have h1 := ih e.caller.qualifiedName v (r ++ [e.callSite])
            have h2 := ihe
              (traverseCallers g gas e.caller.qualifiedName
                (v, r ++ [e.callSite])).1
              (traverseCallers g gas e.caller.qualifiedName
                (v, r ++ [e.callSite])).2
            simp only [Prod.mk.eta] at h2
            simp only [List.length_append, List.length_singleton,
              List.length_cons, List.length_nil] at *
            omega
      intro name visited result
      by_cases hv : name ∈ visited
      · simp [traverseCallers, hv]
      · simp only [traverseCallers, hv, if_false]
        have h1 := hfold ((mapGet g.backwardIndex name).getD [])
          (visited ++ [name]) result
        have h2 := sumUnvisited_visit g.backwardIndex visited name hnd hv
        omega

theorem mem_mapSet {α : Type} (m : List (String × α)) (k : String) (v : α)
    (q : String × α) : q ∈ mapSet m k v → q ∈ m ∨ q = (k, v) := by
  induction m with
  | nil => intro hq; simpa [mapSet] using hq
  | cons s t iht =>
      intro hq
      simp only [mapSet] at hq
      by_cases hs : s.1 = k
      · rw [if_pos hs] at hq
        rcases List.mem_cons.mp hq with h3 | h3
        · exact Or.inr h3
        · exact Or.inl (List.mem_cons_of_mem _ h3)
      · rw [if_neg hs] at hq
        rcases List.mem_cons.mp hq with h3 | h3
        · exact Or.inl (h3 ▸ List.mem_cons_self _ _)
        · rcases iht h3 with h4 | h4
          · exact Or.inl (List.mem_cons_of_mem _ h4)
          · exact Or.inr h4

theorem mapSet_nodupKeys {α : Type} (m : List (String × α)) (k : String)
    (v : α) (h : nodupKeys m) : nodupKeys (mapSet m k v) := by
  induction m with
  | nil => simp [mapSet, nodupKeys]
  | cons p rest ih =>
      obtain ⟨h1, h2⟩ := List.nodup_cons.mp h
      by_cases hp : p.1 = k
      · subst hp
        simpa [mapSet, nodupKeys] using h
      · have ih' := ih h2
        have hk : p.1 ∉ (mapSet rest k v).map Prod.fst := by
          intro hc
          rcases List.mem_map.mp hc with ⟨q, hq, hqe⟩
          -- q is either an entry of rest or the appended (k, v)
          rcases mem_mapSet rest k v q hq with hmem | heq
          · exact h1 (List.mem_map.mpr ⟨q, hmem, hqe⟩)
          · rw [heq] at hqe
            exact hp hqe.symm
        simpa [mapSet, hp, nodupKeys] using List.nodup_cons.mpr ⟨hk, ih'⟩

theorem sumAll_mapSet_push (bw : List (String × List CallEdge)) (k : String)
    (x : CallEdge) :
    sumUnvisited (mapSet bw k ((mapGet bw k).getD [] ++ [x])) [] =
      sumUnvisited bw [] + 1 := by
  induction bw with
  | nil => simp [mapSet, mapGet, sumUnvisited]
  | cons p rest ih =>
      by_cases hp : p.1 = k
      · simp [mapSet, mapGet, hp, sumUnvisited]
        omega
      · simp only [mapSet, mapGet, hp, if_neg hp] at *
        simp [sumUnvisited, List.filter_cons] at *
        omega

theorem addCallEdge_backward_nodup_sum (g : ProjectCallGraph) (e : CallEdge)
    (h : nodupKeys g.backwardIndex) :
    nodupKeys (addCallEdge g e).backwardIndex ∧
      sumUnvisited (addCallEdge g e).backwardIndex [] ≤
        sumUnvisited g.backwardIndex [] + 1 := by
  cases hc : e.calleeLocation with
  | none =>
      constructor
      · simpa [addCallEdge, hc] using h
      · simp [addCallEdge, hc]
  | some loc =>
      have hbw : (addCallEdge g e).backwardIndex =
          mapSet g.backwardIndex loc.qualifiedName
            ((mapGet g.backwardIndex loc.qualifiedName).getD [] ++ [e]) := by
        simp [addCallEdge, hc]
      rw [hbw]
      exact ⟨mapSet_nodupKeys _ _ _ h,
        le_of_eq (sumAll_mapSet_push g.backwardIndex loc.qualifiedName e)⟩

theorem foldl_addCallEdge_backward (rootPath : String) (es : List CallEdge) :
    nodupKeys (es.foldl addCallEdge (createProjectCallGraph rootPath)).backwardIndex ∧
      sumUnvisited
          (es.foldl addCallEdge (createProjectCallGraph rootPath)).backwardIndex
          [] ≤ es.length := by
  suffices hgen : ∀ (g : ProjectCallGraph), nodupKeys g.backwardIndex →
      nodupKeys (es.foldl addCallEdge g).backwardIndex ∧
        sumUnvisited (es.foldl addCallEdge g).backwardIndex [] ≤
          sumUnvisited g.backwardIndex [] + es.length by
    have h0 : nodupKeys (createProjectCallGraph rootPath).backwardIndex := by
      simp [createProjectCallGraph, nodupKeys]
    have := hgen (createProjectCallGraph rootPath) h0
    refine ⟨this.1, ?_⟩
    have h00 : sumUnvisited (createProjectCallGraph rootPath).backwardIndex [] = 0 := by
      simp [createProjectCallGraph, sumUnvisited]
    omega
  induction es with
  | nil =>
      intro g hg
      exact ⟨hg, by simp⟩
  | cons e rest ih =>
      intro g hg
      simp only [List.foldl_cons]
      obtain ⟨h1, h2⟩ := addCallEdge_backward_nodup_sum g e hg
      obtain ⟨h3, h4⟩ := ih (addCallEdge g e) h1
      refine ⟨h3, ?_⟩
      simp only [List.length_cons]
      omega

/-- C8 (amended): `getCallers` visits each qualified name at most once (the
visited set terminates cycles), so over a graph assembled by `addCallEdge`
it emits at most one call-site record per edge, whatever `maxDepth`. -/
theorem getCallers_length_le_edges (rootPath : String) (es : List CallEdge)
    (q : String) (maxDepth : Nat) :
    (getCallers (es.foldl addCallEdge (createProjectCallGraph rootPath)) q
        maxDepth).length ≤ es.length := by
  obtain ⟨hnd, hsum⟩ := foldl_addCallEdge_backward rootPath es
  have hpot := traverseCallers_potential
    (es.foldl addCallEdge (createProjectCallGraph rootPath)) hnd
    (maxDepth + 1) q [] []
  simp only [getCallers]
  simp only [List.length_nil] at hpot
  omega

/-! ## C5: backward-slice idempotence -/

/-- One step of unfolding `sliceLoop` on the empty worklist. -/
theorem sliceLoop_nil (pdg : PDGGraph) (v : Option String)
    (visited slice : List Nat) :
    sliceLoop pdg v [] visited slice = (visited, slice) := by
  simp [sliceLoop]

/-- Unfolding `sliceLoop` when the popped id was already visited. -/
theorem sliceLoop_cons_visited (pdg : PDGGraph) (v : Option String)
    (nodeId : Nat) (rest visited slice : List Nat) (h : nodeId ∈ visited) :
    sliceLoop pdg v (nodeId :: rest) visited slice =
      sliceLoop pdg v rest visited slice := by
  rw [sliceLoop]
  simp [h]

/-- Unfolding `sliceLoop` when the popped id resolves to a node. -/
theorem sliceLoop_cons_found (pdg : PDGGraph) (v : Option String)
    (nodeId : Nat) (rest visited slice : List Nat) (node : PDGNode)
    (hv : nodeId ∉ visited)
    (hfind : pdg.nodes.find? (fun n => n.id = nodeId) = some node) :
    sliceLoop pdg v (nodeId :: rest) visited slice =
      sliceLoop pdg v
        (((pdg.edges.filter (fun e => e.toId = nodeId)).filter
            (fun e => sliceEdgeAllowed pdg v e node)).map (fun e => e.fromId)
          ++ rest)
        (visited ++ [nodeId]) (pushUnique slice node.line) := by
  have hmem : nodeId ∈ pdg.nodes.map (fun n => n.id) := by
    have hp := List.find?_some hfind
    have hmemn := List.mem_of_find?_eq_some hfind
    simp only [decide_eq_true_eq] at hp
    exact List.mem_map.mpr ⟨node, hmemn, hp⟩
  rw [sliceLoop]
  simp only [hv, dite_false, dif_neg, if_neg]
  rw [dif_pos hmem, hfind]

/-- Unfolding `sliceLoop` when the popped id matches no node. -/
theorem sliceLoop_cons_nomatch (pdg : PDGGraph) (v : Option String)
    (nodeId : Nat) (rest visited slice : List Nat)
    (hv : nodeId ∉ visited)
    (hmem : nodeId ∉ pdg.nodes.map (fun n => n.id)) :
    sliceLoop pdg v (nodeId :: rest) visited slice =
      sliceLoop pdg v rest (visited ++ [nodeId]) slice := by
  rw [sliceLoop]
  simp only [hv, dite_false, dif_neg, if_neg]
  rw [dif_neg hmem]

theorem pushUnique_mem_iff {α : Type} [DecidableEq α] (l : List α) (x a : α) :
    a ∈ pushUnique l x ↔ a ∈ l ∨ a = x := by
  by_cases h : x ∈ l
  · simp only [pushUnique, if_pos h]
    constructor
    · exact Or.inl
    · rintro (ha | rfl)
      · exact ha
      · exact h
  · simp [pushUnique, if_neg h, List.mem_append]

/-- The slice accumulated by `sliceLoop` is exactly the set of lines of the
visited ids that resolve to a node. -/
def sliceLinesInv (pdg : PDGGraph) (visited slice : List Nat) : Prop :=
  ∀ a, a ∈ slice ↔
    ∃ id ∈ visited, ∃ nd, pdg.nodes.find? (fun n => n.id = id) = some nd ∧
      nd.line = a

theorem sliceLoop_linesInv (pdg : PDGGraph) (v : Option String) :
    ∀ (wl visited slice : List Nat), sliceLinesInv pdg visited slice →
      sliceLinesInv pdg (sliceLoop pdg v wl visited slice).1
        (sliceLoop pdg v wl visited slice).2 := by
  intro wl visited slice
  induction wl, visited, slice using sliceLoop.induct pdg v with
  | case1 visited slice =>
      intro h
      rw [sliceLoop_nil]
      exact h
  | case2 nodeId rest visited slice hv ih =>
      intro h
      rw [sliceLoop_cons_visited pdg v nodeId rest visited slice hv]
      exact ih h
  | case3 nodeId rest visited slice hv vis2 hmem hfind ih =>
      intro h
      exfalso
      rcases List.mem_map.mp hmem with ⟨n, hn, hnid⟩
      have := List.find?_eq_none.mp hfind n hn
      simp [hnid] at this
  | case4 nodeId rest visited slice hv vis2 hmem node hfind slice2 inc2 nxt2 ih =>
      intro h
      rw [sliceLoop_cons_found pdg v nodeId rest visited slice node hv hfind]
      apply ih
      intro a
      rw [pushUnique_mem_iff]
      constructor
      · rintro (ha | rfl)
        · rcases (h a).mp ha with ⟨id, hid, nd, hndf, hndl⟩
          exact ⟨id, List.mem_append_left _ hid, nd, hndf, hndl⟩
        · exact ⟨nodeId, List.mem_append_right _ (List.mem_singleton.mpr rfl),
            node, hfind, rfl⟩
      · rintro ⟨id, hid, nd, hndf, hndl⟩
        rcases List.mem_append.mp hid with hid1 | hid2
        · exact Or.inl ((h a).mpr ⟨id, hid1, nd, hndf, hndl⟩)
        · simp only [List.mem_singleton] at hid2
          subst hid2
          rw [hfind] at hndf
          cases hndf
          exact Or.inr hndl.symm
  | case5 nodeId rest visited slice hv vis2 hmem ih =>
      intro h
      rw [sliceLoop_cons_nomatch pdg v nodeId rest visited slice hv hmem]
      apply ih
      intro a
      rw [h a]
      constructor
      · rintro ⟨id, hid, nd, hndf, hndl⟩
        exact ⟨id, List.mem_append_left _ hid, nd, hndf, hndl⟩
      · rintro ⟨id, hid, nd, hndf, hndl⟩
        rcases List.mem_append.mp hid with hid1 | hid2
        · exact ⟨id, hid1, nd, hndf, hndl⟩
        · simp only [List.mem_singleton] at hid2
          exfalso
          apply hmem
          rw [← hid2]
          have hmemn := List.mem_of_find?_eq_some hndf
          have hp := List.find?_some hndf
          simp only [decide_eq_true_eq] at hp
          exact List.mem_map.mpr ⟨nd, hmemn, hp⟩

/-- Old visited ids survive the traversal. -/
theorem sliceLoop_visited_mono (pdg : PDGGraph) (v : Option String) :
    ∀ (wl visited slice : List Nat) (id : Nat), id ∈ visited →
      id ∈ (sliceLoop pdg v wl visited slice).1 := by
  intro wl visited slice
  induction wl, visited, slice using sliceLoop.induct pdg v with
  | case1 visited slice =>
      intro id hid
      rw [sliceLoop_nil]
      exact hid
  | case2 nodeId rest visited slice hv ih =>
      intro id hid
      rw [sliceLoop_cons_visited pdg v nodeId rest visited slice hv]
      exact ih id hid
  | case3 nodeId rest visited slice hv vis2 hmem hfind ih =>
      intro id hid
      exfalso
      rcases List.mem_map.mp hmem with ⟨n, hn, hnid⟩
      have := List.find?_eq_none.mp hfind n hn
      simp [hnid] at this
  | case4 nodeId rest visited slice hv vis2 hmem node hfind slice2 inc2 nxt2 ih =>
      intro id hid
      rw [sliceLoop_cons_found pdg v nodeId rest visited slice node hv hfind]
      exact ih id (List.mem_append_left _ hid)
  | case5 nodeId rest visited slice hv vis2 hmem ih =>
      intro id hid
      rw [sliceLoop_cons_nomatch pdg v nodeId rest visited slice hv hmem]
      exact ih id (List.mem_append_left _ hid)

/-- The final visited set is closed under allowed incoming dependence
edges. -/
def sliceClosed (pdg : PDGGraph) (v : Option String) (S : List Nat) : Prop :=
  ∀ id ∈ S, ∀ nd, pdg.nodes.find? (fun n => n.id = id) = some nd →
    ∀ e ∈ pdg.edges, e.toId = id → sliceEdgeAllowed pdg v e nd = true →
      e.fromId ∈ S

theorem sliceLoop_closed (pdg : PDGGraph) (v : Option String) :
    ∀ (wl visited slice : List Nat),
      (∀ id ∈ visited, ∀ nd,
          pdg.nodes.find? (fun n => n.id = id) = some nd →
          ∀ e ∈ pdg.edges, e.toId = id →
            sliceEdgeAllowed pdg v e nd = true →
            e.fromId ∈ visited ∨ e.fromId ∈ wl) →
      sliceClosed pdg v (sliceLoop pdg v wl visited slice).1 := by
  intro wl visited slice
  induction wl, visited, slice using sliceLoop.induct pdg v with
  | case1 visited slice =>
      intro hinv
      rw [sliceLoop_nil]
      intro id hid nd hndf e he hto hall
      rcases hinv id hid nd hndf e he hto hall with h1 | h1
      · exact h1
      · exact absurd h1 (List.not_mem_nil _)
  | case2 nodeId rest visited slice hv ih =>
      intro hinv
      rw [sliceLoop_cons_visited pdg v nodeId rest visited slice hv]
      apply ih
      intro id hid nd hndf e he hto hall
      rcases hinv id hid nd hndf e he hto hall with h1 | h1
      · exact Or.inl h1
      · rcases List.mem_cons.mp h1 with h2 | h2
        · exact Or.inl (h2 ▸ hv)
        · exact Or.inr h2
  | case3 nodeId rest visited slice hv vis2 hmem hfind ih =>
      intro hinv
      exfalso
      rcases List.mem_map.mp hmem with ⟨n, hn, hnid⟩
      have := List.find?_eq_none.mp hfind n hn
      simp [hnid] at this
  | case4 nodeId rest visited slice hv vis2 hmem node hfind slice2 inc2 nxt2 ih =>
      intro hinv
      rw [sliceLoop_cons_found pdg v nodeId rest visited slice node hv hfind]
      apply ih
      intro id hid nd hndf e he hto hall
      rcases List.mem_append.mp hid with hid1 | hid2
      · rcases hinv id hid1 nd hndf e he hto hall with h1 | h1
        · exact Or.inl (List.mem_append_left _ h1)
        · rcases List.mem_cons.mp h1 with h2 | h2
          · exact Or.inl (List.mem_append_right _ (h2 ▸ List.mem_singleton.mpr rfl))
          · exact Or.inr (List.mem_append_right _ h2)
      · simp only [List.mem_singleton] at hid2
        subst hid2
        rw [hfind] at hndf
        cases hndf
        apply Or.inr
        apply List.mem_append_left
        apply List.mem_map.mpr
        refine ⟨e, ?_, rfl⟩
        apply List.mem_filter.mpr
        refine ⟨List.mem_filter.mpr ⟨he, by simp [hto]⟩, hall⟩
  | case5 nodeId rest visited slice hv vis2 hmem ih =>
      intro hinv
      rw [sliceLoop_cons_nomatch pdg v nodeId rest visited slice hv hmem]
      apply ih
      intro id hid nd hndf e he hto hall
      rcases List.mem_append.mp hid with hid1 | hid2
      · rcases hinv id hid1 nd hndf e he hto hall with h1 | h1
        · exact Or.inl (List.mem_append_left _ h1)
        · rcases List.mem_cons.mp h1 with h2 | h2
          · exact Or.inl (List.mem_append_right _ (h2 ▸ List.mem_singleton.mpr rfl))
          · exact Or.inr h2
      · simp only [List.mem_singleton] at hid2
        exfalso
        apply hmem
        rw [← hid2]
        have hmemn := List.mem_of_find?_eq_some hndf
        have hp := List.find?_some hndf
        simp only [decide_eq_true_eq] at hp
        exact List.mem_map.mpr ⟨nd, hmemn, hp⟩

/-- Starting inside a closed set, the traversal stays inside it. -/
theorem sliceLoop_stays_in_closed (pdg : PDGGraph) (v : Option String)
    (S : List Nat) (hS : sliceClosed pdg v S) :
    ∀ (wl visited slice : List Nat), (∀ id ∈ wl, id ∈ S) →
      (∀ id ∈ visited, id ∈ S) →
      ∀ id ∈ (sliceLoop pdg v wl visited slice).1, id ∈ S := by
  intro wl visited slice
  induction wl, visited, slice using sliceLoop.induct pdg v with
  | case1 visited slice =>
      intro hwl hvis id hid
      rw [sliceLoop_nil] at hid
      exact hvis id hid
  | case2 nodeId rest visited slice hv ih =>
      intro hwl hvis id hid
      rw [sliceLoop_cons_visited pdg v nodeId rest visited slice hv] at hid
      exact ih (fun i hi => hwl i (List.mem_cons_of_mem _ hi)) hvis id hid
  | case3 nodeId rest visited slice hv vis2 hmem hfind ih =>
      intro hwl hvis id hid
      exfalso
      rcases List.mem_map.mp hmem with ⟨n, hn, hnid⟩
      have := List.find?_eq_none.mp hfind n hn
      simp [hnid] at this
  | case4 nodeId rest visited slice hv vis2 hmem node hfind slice2 inc2 nxt2 ih =>
      intro hwl hvis id hid
      rw [sliceLoop_cons_found pdg v nodeId rest visited slice node hv hfind]
        at hid
      have hnodeS : nodeId ∈ S := hwl nodeId (List.mem_cons_self _ _)
      refine ih ?_ ?_ id hid
      · intro i hi
        rcases List.mem_append.mp hi with hi1 | hi2
        · rcases List.mem_map.mp hi1 with ⟨e, he, heid⟩
          have he1 := List.mem_filter.mp he
          have he2 := List.mem_filter.mp he1.1
          have hto : e.toId = nodeId := by simpa using he2.2
          exact heid ▸ hS nodeId hnodeS node hfind e he2.1 hto he1.2
        · exact hwl i (List.mem_cons_of_mem _ hi2)
      · intro i hi
        rcases List.mem_append.mp hi with hi1 | hi2
        · exact hvis i hi1
        · simp only [List.mem_singleton] at hi2
          exact hi2 ▸ hnodeS
  | case5 nodeId rest visited slice hv vis2 hmem ih =>
      intro hwl hvis id hid
      rw [sliceLoop_cons_nomatch pdg v nodeId rest visited slice hv hmem]
        at hid
      refine ih (fun i hi => hwl i (List.mem_cons_of_mem _ hi)) ?_ id hid
      intro i hi
      rcases List.mem_append.mp hi with hi1 | hi2
      · exact hvis i hi1
      · simp only [List.mem_singleton] at hi2
        exact hi2 ▸ hwl nodeId (List.mem_cons_self _ _)

/-- In a node list with pairwise-distinct lines, a line determines the
node. -/
theorem pairwise_lines_eq (nodes : List PDGNode)
    (h : nodes.Pairwise (fun a b => a.line ≠ b.line)) (a b : PDGNode)
    (ha : a ∈ nodes) (hb : b ∈ nodes) (hline : a.line = b.line) : a = b := by
  induction nodes with
  | nil => cases ha
  | cons p rest ih =>
      rcases List.pairwise_cons.mp h with ⟨hp, hrest⟩
      rcases List.mem_cons.mp ha with ha1 | ha2 <;>
        rcases List.mem_cons.mp hb with hb1 | hb2
      · rw [ha1, hb1]
      · subst ha1
        exact absurd hline (hp b hb2)
      · subst hb1
        exact absurd hline.symm (hp a ha2)
      · exact ih hrest ha2 hb2

theorem computeBackwardSlice_eq (pdg : PDGGraph) (line : Nat)
    (varCrit : Option String) :
    computeBackwardSlice pdg line varCrit =
      (sliceLoop pdg varCrit
        ((pdg.nodes.filter
            (fun n =>
              decide (n.line = line) &&
                (match varCrit with
                 | some v => decide (v ∈ n.uses) || decide (v ∈ n.defines)
                 | none => true))).map (fun n => n.id)) [] []).2 := rfl

/-- C5 (amended): backward slicing is idempotent on PDGs whose nodes sit on
pairwise-distinct lines: every line of `computeBackwardSlice pdg l' varCrit`
for a line `l'` of `computeBackwardSlice pdg line varCrit` already belongs
to the latter slice. -/
theorem backwardSlice_idempotent_of_distinct_lines (pdg : PDGGraph)
    (hlines : pdg.nodes.Pairwise (fun a b => a.line ≠ b.line))
    (line l' : Nat) (varCrit : Option String)
    (hl' : l' ∈ computeBackwardSlice pdg line varCrit) :
    ∀ x ∈ computeBackwardSlice pdg l' varCrit,
      x ∈ computeBackwardSlice pdg line varCrit := by
  intro x hx
  rw [computeBackwardSlice_eq] at hl' hx ⊢
  have hInv0 : sliceLinesInv pdg [] [] := by
    intro a
    simp
  have hchar1 := sliceLoop_linesInv pdg varCrit
    ((pdg.nodes.filter
        (fun n =>
          decide (n.line = line) &&
            (match varCrit with
             | some v => decide (v ∈ n.uses) || decide (v ∈ n.defines)
             | none => true))).map (fun n => n.id)) [] [] hInv0
  obtain ⟨id1, hid1vis, nd, hndfind, hndline⟩ := (hchar1 l').mp hl'
  have hclosed := sliceLoop_closed pdg varCrit
    ((pdg.nodes.filter
        (fun n =>
          decide (n.line = line) &&
            (match varCrit with
             | some v => decide (v ∈ n.uses) || decide (v ∈ n.defines)
             | none => true))).map (fun n => n.id)) [] []
    (fun id hid => absurd hid (List.not_mem_nil _))
  have hseed2 : ∀ id ∈ (pdg.nodes.filter
      (fun n =>
        decide (n.line = l') &&
          (match varCrit with
           | some v => decide (v ∈ n.uses) || decide (v ∈ n.defines)
           | none => true))).map (fun n => n.id),
      id ∈ (sliceLoop pdg varCrit
        ((pdg.nodes.filter
            (fun n =>
              decide (n.line = line) &&
                (match varCrit with
                 | some v => decide (v ∈ n.uses) || decide (v ∈ n.defines)
                 | none => true))).map (fun n => n.id)) [] []).1 := by
    intro id hid
    rcases List.mem_map.mp hid with ⟨m, hm, hmid⟩
    have hm' := List.mem_filter.mp hm
    have hml : m.line = l' := by
      have := hm'.2
      simp only [Bool.and_eq_true, decide_eq_true_eq] at this
      exact this.1
    have hndmem := List.mem_of_find?_eq_some hndfind
    have hmeq : m = nd :=
      pairwise_lines_eq pdg.nodes hlines m nd hm'.1 hndmem
        (hml.trans hndline.symm)
    have hndid : nd.id = id1 := by
      have hp := List.find?_some hndfind
      simpa using hp
    rw [← hmid, hmeq, hndid]
    exact hid1vis
  have hsub := sliceLoop_stays_in_closed pdg varCrit _ hclosed
    ((pdg.nodes.filter
        (fun n =>
          decide (n.line = l') &&
            (match varCrit with
             | some v => decide (v ∈ n.uses) || decide (v ∈ n.defines)
             | none => true))).map (fun n => n.id)) [] []
    hseed2 (fun id hid => absurd hid (List.not_mem_nil _))
  have hchar2 := sliceLoop_linesInv pdg varCrit
    ((pdg.nodes.filter
        (fun n =>
          decide (n.line = l') &&
            (match varCrit with
             | some v => decide (v ∈ n.uses) || decide (v ∈ n.defines)
             | none => true))).map (fun n => n.id)) [] [] hInv0
  obtain ⟨id2, hid2vis, m2, hm2find, hm2line⟩ := (hchar2 x).mp hx
  exact (hchar1 x).mpr ⟨id2, hsub id2 hid2vis, m2, hm2find, hm2line⟩

/-- C5: the claimed unconditional idempotence of `backwardSlice` fails when
two PDG nodes share a line: on `exSharedLinePDG`, 20 lies in the slice at
line 10, yet the slice at line 20 reaches line 30, which the slice at
line 10 never contains. -/
theorem backwardSlice_not_idempotent :
    20 ∈ computeBackwardSlice exSharedLinePDG 10 none ∧
      30 ∈ computeBackwardSlice exSharedLinePDG 20 none ∧
      30 ∉ computeBackwardSlice exSharedLinePDG 10 none := by
  refine ⟨?_, ?_, ?_⟩ <;>
    simp [computeBackwardSlice, sliceLoop, sliceEdgeAllowed, pushUnique,
      exSharedLinePDG]

/-- Witness: on the distinct-line chain PDG, the amended idempotence theorem
transports line 10 from the slice at line 20 into the slice at line 30. -/
theorem backwardSlice_idempotent_of_distinct_lines_witness :
    exChainPDG.nodes.Pairwise (fun a b => a.line ≠ b.line) ∧
      20 ∈ computeBackwardSlice exChainPDG 30 none ∧
      10 ∈ computeBackwardSlice exChainPDG 30 none := by
  refine ⟨by decide, ?_, ?_⟩
  · simp [computeBackwardSlice, sliceLoop, sliceEdgeAllowed, pushUnique,
      exChainPDG]
  · exact backwardSlice_idempotent_of_distinct_lines exChainPDG (by decide)
      30 20 none
      (by
        simp [computeBackwardSlice, sliceLoop, sliceEdgeAllowed, pushUnique,
          exChainPDG])
      10
      (by
        simp [computeBackwardSlice, sliceLoop, sliceEdgeAllowed, pushUnique,
          exChainPDG])
